import Mathlib

/-!
Verification of the Etcha market-movers core against its design notes.

The definitions below are a shallow embedding of the repository's
TypeScript core, translated file by file:

* `Filters` embeds `lib/filters.ts` (category filter);
* `Kalshi`, `Polymarket`, `Manifold` embed the price-normalization and
  pagination logic of the three source adapters;
* `Engine` embeds `lib/services/priceCalculator.ts` (historical lookup and
  price-change computation);
* `Refresh` embeds the bulk-upsert orchestration of `dataRefresh`
  (`processMarkets` / `refreshAllMarkets`);
* `Ranking` embeds the top-movers route handler.

JavaScript numbers are modelled as `ℚ` (the code only performs exact
decimal arithmetic on them), `Date` values as `ℤ` millisecond timestamps,
strings as `List Char`, nullable/optional values as `Option`.
`Math.round` is `jsRound` below (round half toward positive infinity).
Asynchronous database state is passed explicitly: the Market store is a
function from keys to optional rows and the HistoricalPrice store is a
list of records.
-/

/-- JavaScript `Math.round`: floor of x + 1/2 (ties go up, also for
negative inputs). `Rat.floor` keeps the definition kernel-computable. -/
def jsRound (q : ℚ) : ℤ := Rat.floor (q + 1 / 2)

/-- The three upstream market sources. -/
inductive Source where
  | kalshi
  | polymarket
  | manifold
deriving DecidableEq, Repr

namespace Filters

/-- Lower-case a JS string (`String.prototype.toLowerCase`), charwise. -/
def lowerChars (t : List Char) : List Char := t.map Char.toLower

/-- Upper-case a JS string (`String.prototype.toUpperCase`), charwise. -/
def upperChars (t : List Char) : List Char := t.map Char.toUpper

/-- Case-insensitive prefix test (used for the `i`-flagged regex literals). -/
def isPrefixCI : List Char → List Char → Bool
  | [], _ => true
  | _ :: _, [] => false
  | a :: as, b :: bs => (a.toLower == b.toLower) && isPrefixCI as bs

/-- JS `String.prototype.includes`: `needle` occurs contiguously in the
second argument. -/
def containsSub (needle : List Char) : List Char → Bool
  | [] => needle.isEmpty
  | c :: t => needle.isPrefixOf (c :: t) || containsSub needle t

/-- JS regex word character `\w` = `[A-Za-z0-9_]`. -/
def isWordChar (c : Char) : Bool := c.isAlphanum || c == '_'

/-- A `\b` word boundary holds before a match position when the preceding
character (if any) is not a word character. -/
def boundaryOk (prev : Option Char) : Bool :=
  match prev with
  | none => true
  | some c => !isWordChar c

/-- The keyword matches at the head of `t`, case-insensitively, with a
word boundary right after it. -/
def matchesWordAt (kw t : List Char) : Bool :=
  isPrefixCI kw t && boundaryOk ((t.drop kw.length).head?)

/-- Search for a whole-word, case-insensitive occurrence of `kw`
(the `new RegExp('\\b' + keyword + '\\b', 'i')` test); `prev` is the
character just before the current position. -/
def acronymSearch (kw : List Char) : Option Char → List Char → Bool
  | prev, t =>
    (boundaryOk prev && matchesWordAt kw t) ||
      match t with
      | [] => false
      | c :: r => acronymSearch kw (some c) r

/-- Whole-word case-insensitive containment, for all-uppercase keywords. -/
def containsAcronym (kw text : List Char) : Bool := acronymSearch kw none text

/-- `SPORTS_KEYWORDS` from `lib/filters.ts`. -/
def SPORTS_KEYWORDS : List String :=
  ["NBA", "NFL", "MLB", "NHL", "FIFA", "soccer", "football", "basketball",
   "baseball", "hockey", "tennis", "golf", "boxing", "UFC", "MMA",
   "cricket", "rugby", "Olympics", "Super Bowl", "World Series",
   "Stanley Cup", "points scored", "touchdowns", "home runs",
   "goals scored", "assists", "rebounds", "Australian Open", "French Open",
   "Wimbledon", "US Open tennis", "Grand Slam", "aces at the",
   "March Madness", "World Cup", "Premier League", "La Liga", "Serie A",
   "Bundesliga", "Champions League"]

/-- `NBA_TEAM_INDICATORS` from `lib/filters.ts`. -/
def NBA_TEAM_INDICATORS : List String :=
  ["Los Angeles L", "Los Angeles C", "Golden State", "New England",
   "San Antonio", "New Orleans", "Oklahoma City"]

/-- `ALLOWED_TOPICS` from `lib/filters.ts`. -/
def ALLOWED_TOPICS : List String :=
  ["politics", "election", "elections", "regulation", "technology", "AI",
   "artificial intelligence", "companies", "company"]

/-- `containsSportsKeyword`: all-uppercase keywords are matched as whole
words (case-insensitively); the rest as case-insensitive substrings. -/
def containsSportsKeyword (text : List Char) : Bool :=
  SPORTS_KEYWORDS.any fun kw =>
    if kw.toList = upperChars kw.toList then
      containsAcronym kw.toList text
    else
      containsSub (lowerChars kw.toList) (lowerChars text)

/-- Token alphabet for the fixed regex literals of `lib/filters.ts`.
Each literal is a sequence over disjoint character classes, so greedy
deterministic matching coincides with the JS regex semantics. -/
inductive Tok where
  | lit (s : List Char)
  | alt (ss : List (List Char))
  | ws1
  | ws0
  | digits1
  | digits0
  | digCommas1
  | letters2
  | letter1
  | optDot
deriving Repr

/-- Match a token sequence at the head of the text (case-insensitive,
greedy within each character class). Returns whether the whole sequence
matches starting here. -/
def matchToks : List Tok → List Char → Bool
  | [], _ => true
  | .lit s :: ts, t => isPrefixCI s t && matchToks ts (t.drop s.length)
  | .alt ss :: ts, t =>
      ss.any fun s => isPrefixCI s t && matchToks ts (t.drop s.length)
  | .ws1 :: ts, t =>
      match t with
      | c :: r => c.isWhitespace && matchToks ts (r.dropWhile Char.isWhitespace)
      | [] => false
  | .ws0 :: ts, t => matchToks ts (t.dropWhile Char.isWhitespace)
  | .digits1 :: ts, t =>
      match t with
      | c :: r => c.isDigit && matchToks ts (r.dropWhile Char.isDigit)
      | [] => false
  | .digits0 :: ts, t => matchToks ts (t.dropWhile Char.isDigit)
  | .digCommas1 :: ts, t =>
      match t with
      | c :: r =>
          (c.isDigit || c == ',') &&
            matchToks ts (r.dropWhile fun x => x.isDigit || x == ',')
      | [] => false
  | .letters2 :: ts, t =>
      match t with
      | c1 :: c2 :: r =>
          c1.isAlpha && c2.isAlpha && matchToks ts (r.dropWhile Char.isAlpha)
      | _ => false
  | .letter1 :: ts, t =>
      match t with
      | c :: r => c.isAlpha && matchToks ts r
      | [] => false
  | .optDot :: ts, t =>
      match t with
      | c :: r => if c == '.' then matchToks ts r else matchToks ts (c :: r)
      | [] => matchToks ts []

/-- Unanchored regex search: try the token sequence at every position;
`needB` demands a `\b` word boundary at the match start. -/
def searchToks (needB : Bool) (toks : List Tok) : Option Char → List Char → Bool
  | prev, t =>
    ((!needB || boundaryOk prev) && matchToks toks t) ||
      match t with
      | [] => false
      | c :: r => searchToks needB toks (some c) r

/-- `RegExp.prototype.test` for one of the fixed patterns. -/
def testPattern (needB : Bool) (toks : List Tok) (text : List Char) : Bool :=
  searchToks needB toks none text

/-- `SPORTS_PROP_PATTERNS` from `lib/filters.ts`, as token sequences. -/
def SPORTS_PROP_PATTERNS : List (List Tok) :=
  [[.lit "yes".toList, .ws1, .letters2, .ws1, .letters2, .lit ":".toList,
    .ws0, .digits1, .lit "+".toList],
   [.digits1, .lit "+,".toList, .ws0, .lit "yes".toList, .ws1, .letter1],
   [.lit "over".toList, .ws1, .digits1, .optDot, .digits0, .ws1,
    .lit "points".toList],
   [.lit "under".toList, .ws1, .digits1, .optDot, .digits0, .ws1,
    .lit "points".toList]]

/-- `PRICE_THRESHOLD_PATTERNS` from `lib/filters.ts`; each starts with a
`\b` boundary. -/
def PRICE_THRESHOLD_PATTERNS : List (List Tok) :=
  [[.alt ["btc".toList, "bitcoin".toList], .ws1,
    .alt ["above".toList, "below".toList, "reach".toList, "hit".toList,
          "at".toList], .ws1, .lit "$".toList, .digCommas1],
   [.lit "will".toList, .ws1, .alt ["eth".toList, "ethereum".toList], .ws1,
    .lit "reach".toList, .ws1, .lit "$".toList, .digCommas1],
   [.lit "will".toList, .ws1, .alt ["btc".toList, "bitcoin".toList], .ws1,
    .lit "reach".toList, .ws1, .lit "$".toList, .digCommas1],
   [.alt ["eth".toList, "ethereum".toList], .ws1,
    .alt ["above".toList, "below".toList, "reach".toList, "hit".toList,
          "at".toList], .ws1, .lit "$".toList, .digCommas1],
   [.lit "price".toList, .ws1,
    .alt ["above".toList, "below".toList, "reach".toList], .ws1,
    .lit "$".toList, .digCommas1]]

/-- `matchesSportsPropPattern` from `lib/filters.ts`. -/
def matchesSportsPropPattern (text : List Char) : Bool :=
  SPORTS_PROP_PATTERNS.any fun p => testPattern false p text

/-- `containsNBATeamIndicator` from `lib/filters.ts` (case-sensitive
`String.prototype.includes`). -/
def containsNBATeamIndicator (text : List Char) : Bool :=
  NBA_TEAM_INDICATORS.any fun ind => containsSub ind.toList text

/-- `matchesPriceThresholdPattern` from `lib/filters.ts`. -/
def matchesPriceThresholdPattern (text : List Char) : Bool :=
  PRICE_THRESHOLD_PATTERNS.any fun p => testPattern true p text

/-- `isAllowedTopic` from `lib/filters.ts`: some allow-listed topic is a
case-insensitive substring of the text. -/
def isAllowedTopic (text : List Char) : Bool :=
  ALLOWED_TOPICS.any fun topic =>
    containsSub (lowerChars topic.toList) (lowerChars text)

/-- The combined text blob `title + ' ' + description + ' ' + (category or
empty)` built by `shouldExcludeMarket`. -/
def combinedText (title description : List Char)
    (category : Option (List Char)) : List Char :=
  title ++ [' '] ++ description ++ [' '] ++ category.getD []

/-- `shouldExcludeMarket` from `lib/filters.ts`: layered classifier with
the allow-list check first. -/
def shouldExcludeMarket (title description : List Char)
    (category : Option (List Char)) : Bool :=
  let combined := combinedText title description category
  if isAllowedTopic combined then false
  else if containsSportsKeyword combined then true
  else if matchesSportsPropPattern combined then true
  else if containsNBATeamIndicator combined then true
  else if matchesPriceThresholdPattern combined then true
  else false

end Filters

namespace Kalshi

/-- The fields of a raw Kalshi market record that the embedded logic
reads; `last_price` is optional in the API response. -/
structure KalshiMarket where
  ticker : List Char
  last_price : Option ℚ
deriving DecidableEq, Repr

/-- One page of `GET /markets`: the raw market list and the opaque
`cursor` string (empty when the API has no more data). -/
structure KalshiMarketsResponse where
  markets : List KalshiMarket
  cursor : List Char
deriving Repr

/-- `normalizePrice` from `lib/api/kalshi.ts`: missing `last_price`
defaults to 50, otherwise the cents value is passed through unchanged. -/
def normalizePrice (lastPrice : Option ℚ) : ℚ :=
  match lastPrice with
  | none => 50
  | some p => p

/-- The pagination loop of `fetchAllKalshiMarkets`, stepped over a stream
of page responses; `fuel` bounds the number of iterations we observe and
`none` means the loop was still running when the fuel ran out.  Each
iteration appends the page's markets, breaks once 10000 records have
accumulated (the safety cap), and otherwise continues while the cursor is
nonempty (`data.cursor || undefined`). -/
def fetchAllLoop (pages : ℕ → KalshiMarketsResponse) :
    ℕ → List KalshiMarket → ℕ → Option (List KalshiMarket)
  | 0, _, _ => none
  | fuel + 1, acc, i =>
      let page := pages i
      let acc2 := acc ++ page.markets
      if 10000 ≤ acc2.length then some acc2
      else if page.cursor.isEmpty then some acc2
      else fetchAllLoop pages fuel acc2 (i + 1)

end Kalshi

namespace Polymarket

/-- The fields of a raw Polymarket market the embedded logic reads.  An
entry of `outcomePrices` is `none` when the slot is absent or the empty
string (falsy in JS), and `some v` for a truthy string whose `parseFloat`
value is `v` (`none` inside meaning `NaN`). -/
structure PolymarketMarket where
  conditionId : List Char
  outcomes : List (List Char)
  outcomePrices : List (Option (Option ℚ))
deriving DecidableEq, Repr

/-- An event as counted by the pagination loop of
`fetchAllPolymarketEvents`. -/
structure PolymarketEvent where
  id : List Char
  markets : List PolymarketMarket
deriving Repr

/-- `parseOutcomePrice` applied to a truthy string: `NaN` parses default
to 50, otherwise the decimal in [0,1] is scaled to a 0-100 percentage and
rounded. -/
def parseOutcomePriceVal (v : Option ℚ) : ℚ :=
  match v with
  | none => 50
  | some q => (jsRound (q * 100) : ℚ)

/-- `parseOutcomePrice` from `lib/api/polymarket.ts`: absent or empty
price strings default to 50. -/
def parseOutcomePrice (priceStr : Option (Option ℚ)) : ℚ :=
  match priceStr with
  | none => 50
  | some v => parseOutcomePriceVal v

/-- The `findIndex` call of `getYesPrice`: index of the first outcome
whose lower-cased text is exactly `yes`. -/
def findYesIndex (outcomes : List (List Char)) : Option ℕ :=
  outcomes.findIdx? fun o => Filters.lowerChars o == "yes".toList

/-- `getYesPrice` from `lib/api/polymarket.ts`: use the price of the
`Yes` outcome when present and truthy, else fall back to the first listed
outcome price, else 50. -/
def getYesPrice (outcomes : List (List Char))
    (outcomePrices : List (Option (Option ℚ))) : ℚ :=
  let fallback :=
    if 0 < outcomePrices.length then parseOutcomePrice (outcomePrices.getD 0 none)
    else 50
  match findYesIndex outcomes with
  | some i =>
      match outcomePrices.getD i none with
      | some v => parseOutcomePriceVal v
      | none => fallback
  | none => fallback

/-- The pagination loop of `fetchAllPolymarketEvents` over a stream of
page responses: stop on an empty page, append the events, and stop once
5000 events have accumulated (the safety cap); otherwise advance the
offset and continue. -/
def fetchAllLoop (pages : ℕ → List PolymarketEvent) :
    ℕ → List PolymarketEvent → ℕ → Option (List PolymarketEvent)
  | 0, _, _ => none
  | fuel + 1, acc, i =>
      let events := pages i
      if events.isEmpty then some acc
      else
        let acc2 := acc ++ events
        if 5000 ≤ acc2.length then some acc2
        else fetchAllLoop pages fuel acc2 (i + 1)

end Polymarket

namespace Manifold

/-- The fields of a raw Manifold market the embedded logic reads;
`outcomeTypeBinary` stands for `outcomeType === 'BINARY'`. -/
structure ManifoldMarket where
  id : List Char
  isResolved : Bool
  outcomeTypeBinary : Bool
  probability : Option ℚ
deriving DecidableEq, Repr

/-- `normalizePrice` from `lib/api/manifold.ts`: a missing probability
defaults to 50, otherwise the decimal in [0,1] is scaled to 0-100 and
rounded. -/
def normalizePrice (probability : Option ℚ) : ℚ :=
  match probability with
  | none => 50
  | some q => (jsRound (q * 100) : ℚ)

/-- The pagination loop of `fetchAllManifoldMarkets` over a stream of
page responses: stop on an empty page; keep only unresolved binary
markets with a probability; stop once 10000 such records have
accumulated (the safety cap) or when a short page arrives; otherwise move
the `before` cursor and continue. -/
def fetchAllLoop (pages : ℕ → List ManifoldMarket) :
    ℕ → List ManifoldMarket → ℕ → Option (List ManifoldMarket)
  | 0, _, _ => none
  | fuel + 1, acc, i =>
      let markets := pages i
      if markets.isEmpty then some acc
      else
        let active := markets.filter fun m =>
          !m.isResolved && m.outcomeTypeBinary && m.probability.isSome
        let acc2 := acc ++ active
        if 10000 ≤ acc2.length then some acc2
        else if markets.length < 500 then some acc2
        else fetchAllLoop pages fuel acc2 (i + 1)

end Manifold

namespace Engine

/-- `ONE_DAY_MS` from `priceCalculator.ts`. -/
def ONE_DAY_MS : ℤ := 24 * 60 * 60 * 1000

/-- `ONE_WEEK_MS` from `priceCalculator.ts`. -/
def ONE_WEEK_MS : ℤ := 7 * ONE_DAY_MS

/-- `ONE_MONTH_MS` from `priceCalculator.ts` (30 days). -/
def ONE_MONTH_MS : ℤ := 30 * ONE_DAY_MS

/-- `TIME_TOLERANCE_MS` from `priceCalculator.ts` (4 hours). -/
def TIME_TOLERANCE_MS : ℤ := 4 * 60 * 60 * 1000

/-- A HistoricalPrice document: append-only (marketId, source, price,
timestamp) snapshot. -/
structure HistoricalPriceRec where
  marketId : List Char
  source : Source
  price : ℚ
  timestamp : ℤ
deriving DecidableEq, Repr

/-- The `MarketWithPrices` input of the engine. -/
structure MarketWithPrices where
  marketId : List Char
  source : Source
  currentPrice : ℚ
  creationDate : Option ℤ
deriving DecidableEq, Repr

/-- The `PriceChanges` output record of the engine. -/
structure PriceChanges where
  price1DayAgo : Option ℚ
  price1WeekAgo : Option ℚ
  price1MonthAgo : Option ℚ
  priceChange1Day : Option ℤ
  priceChange1Week : Option ℤ
  priceChange1Month : Option ℤ
deriving DecidableEq, Repr

/-- The Mongo window filter of `findHistoricalPrice`: same market and
source, timestamp within `[minTime, maxTime]`. -/
def inWindow (marketId : List Char) (source : Source) (minTime maxTime : ℤ)
    (h : HistoricalPriceRec) : Bool :=
  h.marketId == marketId && h.source == source &&
    minTime ≤ h.timestamp && h.timestamp ≤ maxTime

/-- The record a `sort({timestamp: -1}).findOne` pick yields: an element
with the greatest timestamp (ties resolved deterministically in the
model; the backend leaves them unspecified). -/
def latestRec : List HistoricalPriceRec → Option HistoricalPriceRec
  | [] => none
  | h :: t =>
      match latestRec t with
      | none => some h
      | some b => if b.timestamp ≤ h.timestamp then some h else some b

/-- `findHistoricalPrice` from `priceCalculator.ts`: the price of the most
recent snapshot for the market within `targetTimestamp ± tolerance`, or
`none` when no snapshot lies in the window. -/
def findHistoricalPrice (marketId : List Char) (source : Source)
    (targetTimestamp : ℤ) (tolerance : ℤ)
    (history : List HistoricalPriceRec) : Option ℚ :=
  let minTime := targetTimestamp - tolerance
  let maxTime := targetTimestamp + tolerance
  (latestRec (history.filter (inWindow marketId source minTime maxTime))).map
    (fun h => h.price)

/-- `marketExistedAt` from `priceCalculator.ts`: true when the creation
date is unknown or not after the target instant. -/
def marketExistedAt (market : MarketWithPrices) (targetTimestamp : ℤ) : Bool :=
  match market.creationDate with
  | none => true
  | some c => c ≤ targetTimestamp

/-- `calculatePriceChange` from `priceCalculator.ts`: `none` for a missing
prior price, else the rounded percentage-point difference. -/
def calculatePriceChange (currentPrice : ℚ) (priorPrice : Option ℚ) :
    Option ℤ :=
  match priorPrice with
  | none => none
  | some p => some (jsRound (currentPrice - p))

/-- The per-period prior-price lookup of `calculatePriceChangesForMarket`:
existence check first, then the tolerance-window lookup. -/
def priorPriceAt (market : MarketWithPrices) (history : List HistoricalPriceRec)
    (target : ℤ) : Option ℚ :=
  if marketExistedAt market target then
    findHistoricalPrice market.marketId market.source target TIME_TOLERANCE_MS
      history
  else none

/-- `calculatePriceChangesForMarket` from `priceCalculator.ts`, with the
reference time and the historical store passed explicitly. -/
def calculatePriceChangesForMarket (market : MarketWithPrices) (now : ℤ)
    (history : List HistoricalPriceRec) : PriceChanges :=
  let price1DayAgo := priorPriceAt market history (now - ONE_DAY_MS)
  let price1WeekAgo := priorPriceAt market history (now - ONE_WEEK_MS)
  let price1MonthAgo := priorPriceAt market history (now - ONE_MONTH_MS)
  { price1DayAgo := price1DayAgo
    price1WeekAgo := price1WeekAgo
    price1MonthAgo := price1MonthAgo
    priceChange1Day := calculatePriceChange market.currentPrice price1DayAgo
    priceChange1Week := calculatePriceChange market.currentPrice price1WeekAgo
    priceChange1Month := calculatePriceChange market.currentPrice price1MonthAgo }

end Engine

/-- `NormalizedMarket` from `lib/api/kalshi.ts`: the shared adapter
output shape. -/
structure NormalizedMarket where
  marketId : List Char
  source : Source
  marketName : List Char
  eventName : List Char
  marketUrl : List Char
  eventUrl : Option (List Char)
  description : Option (List Char)
  creationDate : Option ℤ
  resolutionDate : Option ℤ
  currentPrice : ℚ
  category : Option (List Char)
deriving DecidableEq, Repr

/-- `IMarket` from `models/Market.ts`: a persistent Market document. -/
structure IMarket where
  marketId : List Char
  source : Source
  marketName : List Char
  eventName : List Char
  marketUrl : List Char
  eventUrl : Option (List Char)
  description : Option (List Char)
  creationDate : Option ℤ
  resolutionDate : Option ℤ
  currentPrice : ℚ
  price1DayAgo : Option ℚ
  price1WeekAgo : Option ℚ
  price1MonthAgo : Option ℚ
  priceChange1Day : Option ℚ
  priceChange1Week : Option ℚ
  priceChange1Month : Option ℚ
  category : Option (List Char)
  isExcluded : Bool
  excludedBy : Option (List Char)
  excludedAt : Option ℤ
  lastUpdated : ℤ
deriving DecidableEq, Repr

namespace Refresh

/-- The Market collection, keyed by the unique `(marketId, source)`
index. -/
def Store : Type := List Char × Source → Option IMarket

/-- A store is well formed when every row's own key fields agree with
the key it is filed under (the upserts below maintain this). -/
def WellFormed (st : Store) : Prop :=
  ∀ k r, st k = some r → r.marketId = k.1 ∧ r.source = k.2

/-- The `$set` document of the upsert in `processMarkets`: the normalized
source fields plus `lastUpdated`; every other field of the row is left
as it was. -/
def applySet (m : NormalizedMarket) (now : ℤ) (r : IMarket) : IMarket :=
  { r with
    marketId := m.marketId
    source := m.source
    marketName := m.marketName
    eventName := m.eventName
    marketUrl := m.marketUrl
    eventUrl := m.eventUrl
    description := m.description
    creationDate := m.creationDate
    resolutionDate := m.resolutionDate
    currentPrice := m.currentPrice
    category := m.category
    lastUpdated := now }

/-- The document created when the upsert inserts: the `$set` fields plus
the schema defaults (`isExcluded` false, derived fields unset). -/
def newRow (m : NormalizedMarket) (now : ℤ) : IMarket :=
  { marketId := m.marketId
    source := m.source
    marketName := m.marketName
    eventName := m.eventName
    marketUrl := m.marketUrl
    eventUrl := m.eventUrl
    description := m.description
    creationDate := m.creationDate
    resolutionDate := m.resolutionDate
    currentPrice := m.currentPrice
    price1DayAgo := none
    price1WeekAgo := none
    price1MonthAgo := none
    priceChange1Day := none
    priceChange1Week := none
    priceChange1Month := none
    category := m.category
    isExcluded := false
    excludedBy := none
    excludedAt := none
    lastUpdated := now }

/-- One `updateOne … upsert: true` of the bulk write. -/
def upsertOne (now : ℤ) (st : Store) (m : NormalizedMarket) : Store :=
  fun k =>
    if k = (m.marketId, m.source) then
      some (match st (m.marketId, m.source) with
            | some r => applySet m now r
            | none => newRow m now)
    else st k

/-- One step of `Market.bulkWrite`, tracking Mongo's `modifiedCount`
(documents an update actually changed) and `upsertedCount` (documents
inserted). -/
def bulkStep (now : ℤ) (acc : Store × ℕ × ℕ) (m : NormalizedMarket) :
    Store × ℕ × ℕ :=
  match acc.1 (m.marketId, m.source) with
  | none => (upsertOne now acc.1 m, acc.2.1, acc.2.2 + 1)
  | some r =>
      (upsertOne now acc.1 m,
       acc.2.1 + (if applySet m now r = r then 0 else 1), acc.2.2)

/-- `Market.bulkWrite(bulkOps)` over one batch: apply the upserts in
order and report `(store, modifiedCount, upsertedCount)`. -/
def execBulk (now : ℤ) (st : Store) (batch : List NormalizedMarket) :
    Store × ℕ × ℕ :=
  batch.foldl (bulkStep now) (st, 0, 0)

/-- The historical snapshots prepared for one batch: one per batch
market already present in the store (looked up in the state the batch
started from, as `existingMap` is), carrying the pre-update price and
stamped with the shared reference timestamp. -/
def chunkSnapshots (src : Source) (now : ℤ) (st : Store)
    (batch : List NormalizedMarket) : List Engine.HistoricalPriceRec :=
  batch.filterMap fun m =>
    (st (m.marketId, src)).map fun r =>
      { marketId := r.marketId
        source := r.source
        price := r.currentPrice
        timestamp := now }

/-- The result of processing one source's markets: final store, appended
snapshots, and the two bulk counters. -/
structure GoResult where
  store : Store
  snaps : List Engine.HistoricalPriceRec
  modifiedCount : ℕ
  upsertedCount : ℕ

/-- The batch loop of `processMarkets`: slice off `BATCH_SIZE = 500`
markets, snapshot the existing ones, bulk-upsert, and continue with the
rest.  `fuel` only bounds the recursion; `markets.length` is always
enough since every round consumes at least one market. -/
def processMarketsGo (src : Source) (now : ℤ) :
    ℕ → Store → List NormalizedMarket → GoResult
  | 0, st, _ => ⟨st, [], 0, 0⟩
  | fuel + 1, st, markets =>
      if markets.isEmpty then ⟨st, [], 0, 0⟩
      else
        let batch := markets.take 500
        let rest := markets.drop 500
        let snaps := chunkSnapshots src now st batch
        let b := execBulk now st batch
        let r := processMarketsGo src now fuel b.1 rest
        ⟨r.store, snaps ++ r.snaps, b.2.1 + r.modifiedCount,
         b.2.2 + r.upsertedCount⟩

/-- `RefreshResult` from `dataRefresh`: per-source summary counts.  The
pure store model cannot fail, so the chunk-level catch never fires and
`errors` is always 0. -/
structure RefreshResult where
  source : Source
  marketsUpdated : ℕ
  marketsAdded : ℕ
  errors : ℕ
deriving DecidableEq, Repr

/-- `processMarkets` from `dataRefresh`: process one source's normalized
batch and report the result summary. -/
def processMarkets (markets : List NormalizedMarket) (src : Source)
    (now : ℤ) (st : Store) : GoResult × RefreshResult :=
  let r := processMarketsGo src now markets.length st markets
  (r, ⟨src, r.modifiedCount, r.upsertedCount, 0⟩)

/-- `RefreshSummary` from `dataRefresh`. -/
structure RefreshSummary where
  kalshi : RefreshResult
  polymarket : RefreshResult
  manifold : RefreshResult
  totalMarketsUpdated : ℕ
  totalMarketsAdded : ℕ
  totalErrors : ℕ
  timestamp : ℤ
deriving DecidableEq, Repr

/-- The `.catch(() => [])` wrapper of `refreshAllMarkets`: a source whose
fetch rejected contributes an empty batch (the error is only logged). -/
def fetchResult (r : Except Unit (List NormalizedMarket)) :
    List NormalizedMarket :=
  match r with
  | .ok l => l
  | .error _ => []

/-- `refreshAllMarkets` from `dataRefresh`: combine the three fetch
outcomes, process each source's batch against the shared store with the
single reference timestamp `now`, and report the summary.  The three
sources touch disjoint keys, so the concurrent processing is modelled
sequentially. -/
def refreshAllMarkets (st : Store) (history : List Engine.HistoricalPriceRec)
    (now : ℤ)
    (kalshiFetch polymarketFetch manifoldFetch :
      Except Unit (List NormalizedMarket)) :
    RefreshSummary × Store × List Engine.HistoricalPriceRec :=
  let kalshiMarkets := fetchResult kalshiFetch
  let polymarketMarkets := fetchResult polymarketFetch
  let manifoldMarkets := fetchResult manifoldFetch
  let k := processMarkets kalshiMarkets .kalshi now st
  let p := processMarkets polymarketMarkets .polymarket now k.1.store
  let m := processMarkets manifoldMarkets .manifold now p.1.store
  (⟨k.2, p.2, m.2,
    k.2.marketsUpdated + p.2.marketsUpdated + m.2.marketsUpdated,
    k.2.marketsAdded + p.2.marketsAdded + m.2.marketsAdded,
    k.2.errors + p.2.errors + m.2.errors, now⟩,
   m.1.store, history ++ k.1.snaps ++ p.1.snaps ++ m.1.snaps)

end Refresh

namespace Ranking

/-- The three lookback periods accepted by the top-movers route. -/
inductive Period where
  | d1
  | w1
  | m1
deriving DecidableEq, Repr

/-- `getPriceChangeField` resolved on a row. -/
def priceChangeField (p : Period) (r : IMarket) : Option ℚ :=
  match p with
  | .d1 => r.priceChange1Day
  | .w1 => r.priceChange1Week
  | .m1 => r.priceChange1Month

/-- `getPriorPriceField` resolved on a row. -/
def priorPriceField (p : Period) (r : IMarket) : Option ℚ :=
  match p with
  | .d1 => r.price1DayAgo
  | .w1 => r.price1WeekAgo
  | .m1 => r.price1MonthAgo

/-- The sort key `Math.abs(market[priceChangeField] as number || 0)`. -/
def absChange (p : Period) (r : IMarket) : ℚ :=
  |(priceChangeField p r).getD 0|

/-- The in-memory comparator `(a, b) => bChange - aChange`, as the
descending order it realizes. -/
def byAbsChangeDesc (p : Period) (a b : IMarket) : Prop :=
  absChange p b ≤ absChange p a

instance (p : Period) : DecidableRel (byAbsChangeDesc p) := fun a b =>
  inferInstanceAs (Decidable (absChange p b ≤ absChange p a))

instance (p : Period) : IsTotal IMarket (byAbsChangeDesc p) :=
  ⟨fun a b => le_total (absChange p b) (absChange p a)⟩

instance (p : Period) : IsTrans IMarket (byAbsChangeDesc p) :=
  ⟨fun _ _ _ hab hbc => le_trans hbc hab⟩

/-- The fallback ordering `sort({ lastUpdated: -1 })`. -/
def byLastUpdatedDesc (a b : IMarket) : Prop :=
  b.lastUpdated ≤ a.lastUpdated

instance : DecidableRel byLastUpdatedDesc := fun a b =>
  inferInstanceAs (Decidable (b.lastUpdated ≤ a.lastUpdated))

instance : IsTotal IMarket byLastUpdatedDesc :=
  ⟨fun a b => le_total b.lastUpdated a.lastUpdated⟩

instance : IsTrans IMarket byLastUpdatedDesc :=
  ⟨fun _ _ _ hab hbc => le_trans hbc hab⟩

/-- The Mongo eligibility query of the route: not excluded, and both the
period's price change and prior price present (`$ne: null` also rejects
missing fields). -/
def eligibleFor (p : Period) (r : IMarket) : Bool :=
  !r.isExcluded && (priceChangeField p r).isSome && (priorPriceField p r).isSome

/-- The `GET` handler of the top-movers route over the stored markets
(in query order): filter to eligible rows and sort by absolute change
descending, or fall back to the 20 most recently updated non-excluded
rows when no row is eligible; either way return at most 20 rows plus the
`fallbackMode` flag. -/
def topMoversGET (markets : List IMarket) (p : Period) :
    List IMarket × Bool :=
  let eligible := markets.filter (eligibleFor p)
  if eligible.isEmpty then
    (((markets.filter fun r => !r.isExcluded).insertionSort
        byLastUpdatedDesc).take 20, true)
  else
    ((eligible.insertionSort (byAbsChangeDesc p)).take 20, false)

end Ranking

namespace Engine

/-- Specification of one period's prior-price determination, as the
design states it: creation strictly after the target forces null with no
lookup; unknown creation assumes existence; under existence the result
is the most recent snapshot within the ±4h tolerance window, and null
exactly when the window is empty. -/
def PriorLookupSpec (market : MarketWithPrices)
    (history : List HistoricalPriceRec) (target : ℤ) (res : Option ℚ) : Prop :=
  (∀ c, market.creationDate = some c → target < c → res = none) ∧
  (market.creationDate = none → marketExistedAt market target = true) ∧
  (marketExistedAt market target = true →
    ((res = none ↔
        ∀ a ∈ history,
          inWindow market.marketId market.source (target - TIME_TOLERANCE_MS)
            (target + TIME_TOLERANCE_MS) a = false) ∧
     (∀ p, res = some p →
        ∃ a, a ∈ history ∧
          inWindow market.marketId market.source (target - TIME_TOLERANCE_MS)
            (target + TIME_TOLERANCE_MS) a = true ∧
          a.price = p ∧
          ∀ b ∈ history,
            inWindow market.marketId market.source (target - TIME_TOLERANCE_MS)
              (target + TIME_TOLERANCE_MS) b = true →
            b.timestamp ≤ a.timestamp)))

end Engine

namespace Refresh

/-- The frame property of one refresh cycle on a pre-existing row: all
derived-change fields and all exclusion fields keep their prior values
(only the normalized source fields and `lastUpdated` may change). -/
def Frame (r r2 : IMarket) : Prop :=
  r2.price1DayAgo = r.price1DayAgo ∧
  r2.price1WeekAgo = r.price1WeekAgo ∧
  r2.price1MonthAgo = r.price1MonthAgo ∧
  r2.priceChange1Day = r.priceChange1Day ∧
  r2.priceChange1Week = r.priceChange1Week ∧
  r2.priceChange1Month = r.priceChange1Month ∧
  r2.isExcluded = r.isExcluded ∧
  r2.excludedBy = r.excludedBy ∧
  r2.excludedAt = r.excludedAt

end Refresh

namespace Fixtures

/-- A stored Kalshi market row used in concrete instances. -/
def rowA : IMarket :=
  { marketId := "A".toList, source := .kalshi, marketName := "Aname".toList,
    eventName := "Aev".toList, marketUrl := "u".toList, eventUrl := none,
    description := none, creationDate := none, resolutionDate := none,
    currentPrice := 10, price1DayAgo := some 7, price1WeekAgo := none,
    price1MonthAgo := none, priceChange1Day := some 3,
    priceChange1Week := none, priceChange1Month := none, category := none,
    isExcluded := false, excludedBy := none, excludedAt := none,
    lastUpdated := 1 }

/-- A store holding exactly `rowA` under its key. -/
def storeA : Refresh.Store :=
  fun k => if k = ("A".toList, Source.kalshi) then some rowA else none

/-- A normalized update for the stored market `A`. -/
def updA : NormalizedMarket :=
  { marketId := "A".toList, source := .kalshi, marketName := "Aname2".toList,
    eventName := "Aev".toList, marketUrl := "u".toList, eventUrl := none,
    description := none, creationDate := none, resolutionDate := none,
    currentPrice := 20, category := none }

/-- A second normalized record repeating market `A`'s id. -/
def updA2 : NormalizedMarket := { updA with currentPrice := 30 }

/-- A normalized Kalshi market unseen before. -/
def newB : NormalizedMarket :=
  { marketId := "B".toList, source := .kalshi, marketName := "Bname".toList,
    eventName := "Bev".toList, marketUrl := "u".toList, eventUrl := none,
    description := none, creationDate := none, resolutionDate := none,
    currentPrice := 60, category := none }

/-- A normalized Manifold market unseen before. -/
def newC : NormalizedMarket :=
  { marketId := "C".toList, source := .manifold, marketName := "Cname".toList,
    eventName := "Cev".toList, marketUrl := "u".toList, eventUrl := none,
    description := none, creationDate := none, resolutionDate := none,
    currentPrice := 40, category := none }

/-- The empty market store. -/
def emptyStore : Refresh.Store := fun _ => none

end Fixtures

lemma jsRound_eq_floor (q : ℚ) : jsRound q = ⌊q + 1 / 2⌋ := by
  rw [jsRound, Rat.floor_def', ← Rat.floor_def]

lemma jsRound_close (q : ℚ) : |q - (jsRound q : ℚ)| ≤ 1 / 2 := by
  rw [jsRound_eq_floor]
  have h1 : ((⌊q + 1 / 2⌋ : ℤ) : ℚ) ≤ q + 1 / 2 := Int.floor_le _
  have h2 : q + 1 / 2 < ((⌊q + 1 / 2⌋ : ℤ) : ℚ) + 1 := Int.lt_floor_add_one _
  rw [abs_le]
  constructor <;> linarith

lemma jsRound_pos_imp (q : ℚ) (h : 0 < jsRound q) : 0 < q := by
  rw [jsRound_eq_floor] at h
  have h1 : (1 : ℚ) ≤ q + 1 / 2 := by
    have := Int.le_floor.mp h
    exact_mod_cast this
  linarith

lemma jsRound_intCast (n : ℤ) : jsRound ((n : ℚ)) = n := by
  rw [jsRound_eq_floor, Int.floor_eq_iff]
  constructor
  · linarith
  · norm_num

lemma jsRound_scale_bounds (q : ℚ) (h0 : 0 ≤ q) (h1 : q ≤ 1) :
    0 ≤ jsRound (q * 100) ∧ jsRound (q * 100) ≤ 100 := by
  rw [jsRound_eq_floor]
  constructor
  · exact Int.le_floor.mpr (by push_cast; linarith)
  · by_contra hc
    push_neg at hc
    have h2 : ((⌊q * 100 + 1 / 2⌋ : ℤ) : ℚ) ≤ q * 100 + 1 / 2 := Int.floor_le _
    have h3 : (101 : ℚ) ≤ ((⌊q * 100 + 1 / 2⌋ : ℤ) : ℚ) := by
      exact_mod_cast hc
    linarith

lemma latestRec_eq_none_iff (l : List Engine.HistoricalPriceRec) :
    Engine.latestRec l = none ↔ l = [] := by
  induction l with
  | nil => simp [Engine.latestRec]
  | cons a t ih =>
      simp only [Engine.latestRec]
      cases ht : Engine.latestRec t
      · simp [ht]
      · simp only [ht]
        constructor
        · intro hc
          split at hc <;> simp at hc
        · intro hc
          simp at hc

lemma latestRec_mem {l : List Engine.HistoricalPriceRec}
    {b : Engine.HistoricalPriceRec} (h : Engine.latestRec l = some b) :
    b ∈ l := by
  induction l with
  | nil => simp [Engine.latestRec] at h
  | cons a t ih =>
      simp only [Engine.latestRec] at h
      cases ht : Engine.latestRec t with
      | none => rw [ht] at h; simp at h; simp [h]
      | some c =>
          rw [ht] at h
          simp only at h
          split at h
          · simp at h; simp [h]
          · simp at h; subst h; exact List.mem_cons_of_mem _ (ih ht)

lemma latestRec_max (l : List Engine.HistoricalPriceRec) :
    ∀ b, Engine.latestRec l = some b → ∀ x ∈ l, x.timestamp ≤ b.timestamp := by
  induction l with
  | nil => simp
  | cons a t ih =>
      intro b h
      simp only [Engine.latestRec] at h
      cases ht : Engine.latestRec t with
      | none =>
          rw [ht] at h
          simp at h
          have hnil : t = [] := (latestRec_eq_none_iff t).mp ht
          subst hnil
          simp [h]
      | some c =>
          rw [ht] at h
          simp only at h
          split at h
          · rename_i hle
            simp at h
            subst h
            intro x hx
            rcases List.mem_cons.mp hx with hx | hx
            · subst hx; exact le_refl _
            · exact le_trans (ih c ht x hx) hle
          · rename_i hlt
            simp at h
            subst h
            intro x hx
            rcases List.mem_cons.mp hx with hx | hx
            · subst hx; exact le_of_lt (lt_of_not_le hlt)
            · exact ih _ ht x hx

lemma findHistoricalPrice_none_iff (marketId : List Char) (src : Source)
    (target tol : ℤ) (history : List Engine.HistoricalPriceRec) :
    Engine.findHistoricalPrice marketId src target tol history = none ↔
      ∀ a ∈ history,
        Engine.inWindow marketId src (target - tol) (target + tol) a = false := by
  simp only [Engine.findHistoricalPrice, Option.map_eq_none']
  rw [latestRec_eq_none_iff, List.filter_eq_nil_iff]
  constructor
  · intro h a ha
    have := h a ha
    simpa using this
  · intro h a ha
    simp [h a ha]

lemma findHistoricalPrice_some (marketId : List Char) (src : Source)
    (target tol : ℤ) (history : List Engine.HistoricalPriceRec) (p : ℚ)
    (h : Engine.findHistoricalPrice marketId src target tol history = some p) :
    ∃ a, a ∈ history ∧
      Engine.inWindow marketId src (target - tol) (target + tol) a = true ∧
      a.price = p ∧
      ∀ b ∈ history,
        Engine.inWindow marketId src (target - tol) (target + tol) b = true →
        b.timestamp ≤ a.timestamp := by
  simp only [Engine.findHistoricalPrice, Option.map_eq_some'] at h
  obtain ⟨a, ha, hap⟩ := h
  have hmem := latestRec_mem ha
  have hmax := latestRec_max _ a ha
  rw [List.mem_filter] at hmem
  refine ⟨a, hmem.1, hmem.2, hap, ?_⟩
  intro b hb hbw
  exact hmax b (List.mem_filter.mpr ⟨hb, hbw⟩)

lemma priorPriceAt_satisfies (market : Engine.MarketWithPrices)
    (history : List Engine.HistoricalPriceRec) (target : ℤ) :
    Engine.PriorLookupSpec market history target
      (Engine.priorPriceAt market history target) := by
  refine ⟨?_, ?_, ?_⟩
  · intro c hc hlt
    have hex : Engine.marketExistedAt market target = false := by
      simp [Engine.marketExistedAt, hc]
      omega
    simp [Engine.priorPriceAt, hex]
  · intro hc
    simp [Engine.marketExistedAt, hc]
  · intro hex
    have hres : Engine.priorPriceAt market history target =
        Engine.findHistoricalPrice market.marketId market.source target
          Engine.TIME_TOLERANCE_MS history := by
      simp [Engine.priorPriceAt, hex]
    rw [hres]
    exact ⟨findHistoricalPrice_none_iff _ _ _ _ _,
           fun p hp => findHistoricalPrice_some _ _ _ _ _ _ hp⟩

/-- C2: for each lookback period, the engine forces a null prior price
(without lookup) when the market's creation date is strictly after the
target instant, assumes existence when the creation date is unknown, and
under existence returns the most recent historical snapshot within the
±4-hour tolerance window around the target — null exactly when no
snapshot lies in the window. -/
theorem engine_prior_price_window (market : Engine.MarketWithPrices)
    (now : ℤ) (history : List Engine.HistoricalPriceRec) :
    Engine.PriorLookupSpec market history (now - Engine.ONE_DAY_MS)
      ((Engine.calculatePriceChangesForMarket market now history).price1DayAgo) ∧
    Engine.PriorLookupSpec market history (now - Engine.ONE_WEEK_MS)
      ((Engine.calculatePriceChangesForMarket market now history).price1WeekAgo) ∧
    Engine.PriorLookupSpec market history (now - Engine.ONE_MONTH_MS)
      ((Engine.calculatePriceChangesForMarket market now history).price1MonthAgo) :=
  ⟨priorPriceAt_satisfies market history (now - Engine.ONE_DAY_MS),
   priorPriceAt_satisfies market history (now - Engine.ONE_WEEK_MS),
   priorPriceAt_satisfies market history (now - Engine.ONE_MONTH_MS)⟩

/-- C9: the computed change is null exactly for a null prior price, is
the rounding of `currentPrice - priorPrice` (within 1/2 of the exact
difference), a strictly positive change only arises from a genuine
price increase, and 70 against a prior of 38 gives +32. -/
theorem engine_price_change_rounding (c p : ℚ) :
    Engine.calculatePriceChange c none = none ∧
    Engine.calculatePriceChange c (some p) = some (jsRound (c - p)) ∧
    |(c - p) - (jsRound (c - p) : ℚ)| ≤ 1 / 2 ∧
    (0 < jsRound (c - p) → p < c) ∧
    Engine.calculatePriceChange 70 (some 38) = some 32 := by
  refine ⟨rfl, rfl, jsRound_close _, ?_, ?_⟩
  · intro h
    have := jsRound_pos_imp _ h
    linarith
  · show some (jsRound (70 - 38)) = some 32
    have h1 : (70 - 38 : ℚ) = ((32 : ℤ) : ℚ) := by norm_num
    rw [h1, jsRound_intCast]

/-- C10: in the engine's output, each period's price change is null if
and only if that period's prior price is null. -/
theorem engine_change_null_iff_prior_null (market : Engine.MarketWithPrices)
    (now : ℤ) (history : List Engine.HistoricalPriceRec) :
    ((Engine.calculatePriceChangesForMarket market now history).priceChange1Day
        = none ↔
      (Engine.calculatePriceChangesForMarket market now history).price1DayAgo
        = none) ∧
    ((Engine.calculatePriceChangesForMarket market now history).priceChange1Week
        = none ↔
      (Engine.calculatePriceChangesForMarket market now history).price1WeekAgo
        = none) ∧
    ((Engine.calculatePriceChangesForMarket market now history).priceChange1Month
        = none ↔
      (Engine.calculatePriceChangesForMarket market now history).price1MonthAgo
        = none) := by
  refine ⟨?_, ?_, ?_⟩ <;>
    · simp only [Engine.calculatePriceChangesForMarket]
      cases Engine.priorPriceAt market history _ <;>
        simp [Engine.calculatePriceChange]

/-- C5: whenever any allow-listed topic keyword occurs (case-insensitively)
in the combined title + description + category blob, `shouldExcludeMarket`
returns false, regardless of what the sports/prop/NBA/price layers would
say. -/
theorem filters_allowed_topic_overrides (title description : List Char)
    (category : Option (List Char))
    (h : ∃ kw ∈ Filters.ALLOWED_TOPICS,
      Filters.containsSub (Filters.lowerChars kw.toList)
        (Filters.lowerChars
          (Filters.combinedText title description category)) = true) :
    Filters.shouldExcludeMarket title description category = false := by
  have hA : Filters.isAllowedTopic
      (Filters.combinedText title description category) = true := by
    rw [Filters.isAllowedTopic, List.any_eq_true]
    obtain ⟨kw, hm, hs⟩ := h
    exact ⟨kw, hm, hs⟩
  rw [Filters.shouldExcludeMarket]
  simp [hA]

/-- Witness for C5: a title containing both a sports keyword and an
allow-listed keyword is kept. -/
theorem filters_allowed_topic_overrides_witness :
    (∃ kw ∈ Filters.ALLOWED_TOPICS,
      Filters.containsSub (Filters.lowerChars kw.toList)
        (Filters.lowerChars
          (Filters.combinedText "NBA Election Winner".toList [] none)) =
        true) ∧
    Filters.shouldExcludeMarket "NBA Election Winner".toList [] none =
      false :=
  ⟨by decide, filters_allowed_topic_overrides _ _ _ (by decide)⟩

/-- C6 counterexample: the Kalshi normalizer passes an out-of-range raw
`last_price` straight through, so a raw record with `last_price = 150`
yields a normalized price outside [0, 100]. -/
theorem kalshi_normalize_out_of_range :
    Kalshi.normalizePrice (some 150) = 150 ∧
    ¬(Kalshi.normalizePrice (some 150) ≤ 100) := by
  constructor
  · rfl
  · show ¬((150 : ℚ) ≤ 100)
    norm_num

lemma getD_mem_or {α : Type} (l : List α) (i : ℕ) (d : α) :
    l.getD i d = d ∨ l.getD i d ∈ l := by
  induction l generalizing i with
  | nil => simp
  | cons a t ih =>
      cases i with
      | zero => simp
      | succ j =>
          rcases ih j with h | h
      
          · exact Or.inl (by simpa using h)
          · exact Or.inr (by simp; right; simpa using h)

/-- C6 (amended): each normalizer defaults to 50 on missing or unparseable
price data, and produces a price in [0, 100] whenever the raw source value
lies in its documented range (Kalshi `last_price` in cents 0-100,
Polymarket and Manifold decimals in [0, 1]); out-of-range raw values pass
through unclamped, so the invariant holds only under that assumption. -/
theorem normalized_price_range (p q : ℚ) (outcomes : List (List Char))
    (prices : List (Option (Option ℚ))) :
    Kalshi.normalizePrice none = 50 ∧
    Kalshi.normalizePrice (some p) = p ∧
    Manifold.normalizePrice none = 50 ∧
    (0 ≤ q → q ≤ 1 →
      0 ≤ Manifold.normalizePrice (some q) ∧
      Manifold.normalizePrice (some q) ≤ 100) ∧
    Polymarket.parseOutcomePrice none = 50 ∧
    Polymarket.parseOutcomePriceVal none = 50 ∧
    (0 ≤ q → q ≤ 1 →
      0 ≤ Polymarket.parseOutcomePriceVal (some q) ∧
      Polymarket.parseOutcomePriceVal (some q) ≤ 100) ∧
    ((∀ e ∈ prices, ∀ v, e = some v → ∀ r, v = some r → 0 ≤ r ∧ r ≤ 1) →
      0 ≤ Polymarket.getYesPrice outcomes prices ∧
      Polymarket.getYesPrice outcomes prices ≤ 100) := by
  have hval : ∀ v : Option ℚ,
      (∀ r, v = some r → 0 ≤ r ∧ r ≤ 1) →
      0 ≤ Polymarket.parseOutcomePriceVal v ∧
      Polymarket.parseOutcomePriceVal v ≤ 100 := by
    intro v hv
    cases v with
    | none => constructor <;> norm_num [Polymarket.parseOutcomePriceVal]
    | some r =>
        obtain ⟨h0, h1⟩ := hv r rfl
        obtain ⟨hl, hr⟩ := jsRound_scale_bounds r h0 h1
        constructor
        · show (0 : ℚ) ≤ (jsRound (r * 100) : ℚ)
          exact_mod_cast hl
        · show (jsRound (r * 100) : ℚ) ≤ 100
          exact_mod_cast hr
  refine ⟨rfl, rfl, rfl, ?_, rfl, rfl, ?_, ?_⟩
  · intro h0 h1
    obtain ⟨hl, hr⟩ := jsRound_scale_bounds q h0 h1
    constructor
    · show (0 : ℚ) ≤ (jsRound (q * 100) : ℚ)
      exact_mod_cast hl
    · show (jsRound (q * 100) : ℚ) ≤ 100
      exact_mod_cast hr
  · intro h0 h1
    exact hval (some q) (fun r hr => by cases hr; exact ⟨h0, h1⟩)
  · intro hin
    have hfall :
        0 ≤ (if 0 < prices.length
              then Polymarket.parseOutcomePrice (prices.getD 0 none)
              else 50) ∧
        (if 0 < prices.length
          then Polymarket.parseOutcomePrice (prices.getD 0 none)
          else 50) ≤ 100 := by
      split
      · rcases getD_mem_or prices 0 none with h | h
        · rw [h]
          constructor <;> norm_num [Polymarket.parseOutcomePrice]
        · cases hE : prices.getD 0 none with
          | none =>
              constructor <;> norm_num [Polymarket.parseOutcomePrice]
          | some v =>
              rw [hE] at h
              have := hin _ h v rfl
              show 0 ≤ Polymarket.parseOutcomePriceVal v ∧
                Polymarket.parseOutcomePriceVal v ≤ 100
              exact hval v (fun r hr => this r hr)
      · constructor <;> norm_num
    rw [Polymarket.getYesPrice]
    split
    · rename_i i hI
      split
      · rename_i v hE
        rcases getD_mem_or prices i none with h | h
        · rw [hE] at h
          cases h
        · rw [hE] at h
          have hb := hin _ h v rfl
          exact hval v (fun r hr => hb r hr)
      · exact hfall
    · exact hfall

lemma polymarketLoop_terminates (pages : ℕ → List Polymarket.PolymarketEvent) :
    ∀ fuel acc i, 5001 ≤ acc.length + fuel → 1 ≤ fuel →
      Polymarket.fetchAllLoop pages fuel acc i ≠ none := by
  intro fuel
  induction fuel with
  | zero => intro acc i h h1; omega
  | succ n ih =>
      intro acc i h _
      rw [Polymarket.fetchAllLoop]
      split
      · simp
      · rename_i hne
        dsimp only
        split
        · simp
        · rename_i hcap
          apply ih
          · have h1 : 1 ≤ (pages i).length := by
              rcases List.isEmpty_eq_false_iff_exists_mem.mp
                (by simpa using hne) with ⟨x, hx⟩
              exact List.length_pos.mpr (fun hnil => by simp [hnil] at hx)
            simp only [List.length_append]
            omega
          · have hlen : (acc ++ pages i).length < 5000 := by omega
            have h1 : 1 ≤ (pages i).length := by
              rcases List.isEmpty_eq_false_iff_exists_mem.mp
                (by simpa using hne) with ⟨x, hx⟩
              exact List.length_pos.mpr (fun hnil => by simp [hnil] at hx)
            simp only [List.length_append] at hlen
            omega

lemma filter_replicate_false {α : Type} (p : α → Bool) (a : α) (n : ℕ)
    (h : p a = false) : (List.replicate n a).filter p = [] := by
  induction n with
  | zero => rfl
  | succ m ih => simp [List.replicate_succ, List.filter_cons, h, ih]

lemma manifold_loop_step (pages : ℕ → List Manifold.ManifoldMarket)
    (fuel : ℕ) (acc : List Manifold.ManifoldMarket) (i : ℕ)
    (hne : ¬((pages i).isEmpty = true))
    (hf : (pages i).filter (fun m =>
      !m.isResolved && m.outcomeTypeBinary && m.probability.isSome) = [])
    (hacc : ¬(10000 ≤ acc.length))
    (hlen : ¬((pages i).length < 500)) :
    Manifold.fetchAllLoop pages (fuel + 1) acc i =
      Manifold.fetchAllLoop pages fuel acc (i + 1) := by
  rw [Manifold.fetchAllLoop]
  rw [if_neg hne]
  simp only [hf, List.append_nil]
  rw [if_neg hacc, if_neg hlen]

/-- C8 (code bug): a misbehaving API that keeps answering pages which add
no records defeats the safety caps — the Kalshi loop (empty pages with a
live cursor) and the Manifold loop (full pages of resolved markets) never
terminate, while the Polymarket loop does terminate on every page
stream within 5001 iterations. -/
theorem pagination_cap_gap :
    (∀ fuel i,
      Kalshi.fetchAllLoop (fun _ => ⟨[], ['c']⟩) fuel [] i = none) ∧
    (∀ fuel i,
      Manifold.fetchAllLoop
        (fun _ => List.replicate 500 ⟨['x'], true, false, none⟩) fuel [] i =
        none) ∧
    (∀ pages i, Polymarket.fetchAllLoop pages 5001 [] i ≠ none) := by
  refine ⟨?_, ?_, ?_⟩
  · intro fuel
    induction fuel with
    | zero => intro i; rfl
    | succ n ih =>
        intro i
        rw [Kalshi.fetchAllLoop]
        simpa using ih (i + 1)
  · intro fuel
    induction fuel with
    | zero => intro i; rfl
    | succ n ih =>
        intro i
        rw [manifold_loop_step]
        · exact ih (i + 1)
        · intro hE
          have hc := congrArg List.length (List.isEmpty_iff.mp hE)
          simp only [List.length_replicate, List.length_nil] at hc
          omega
        · exact filter_replicate_false _ _ _ rfl
        · simp only [List.length_nil]
          omega
        · simp only [List.length_replicate]
          omega
  · intro pages i
    exact polymarketLoop_terminates pages 5001 [] i (by simp) (by omega)

/-- C3: the route returns at most 20 rows, never an excluded row; in
ranking mode the rows are sorted by absolute price change descending and
each carries both a change and a prior price for the period; fallback
mode is entered exactly when no stored row is eligible, and then the
result is the 20 most recently updated non-excluded rows in descending
`lastUpdated` order. -/
theorem ranking_top_movers_spec (markets : List IMarket) (p : Ranking.Period) :
    (Ranking.topMoversGET markets p).1.length ≤ 20 ∧
    (∀ r ∈ (Ranking.topMoversGET markets p).1, r.isExcluded = false) ∧
    ((Ranking.topMoversGET markets p).2 = false →
      List.Sorted (Ranking.byAbsChangeDesc p) (Ranking.topMoversGET markets p).1 ∧
      ∀ r ∈ (Ranking.topMoversGET markets p).1,
        (Ranking.priceChangeField p r).isSome ∧
        (Ranking.priorPriceField p r).isSome) ∧
    ((Ranking.topMoversGET markets p).2 = true ↔
      markets.filter (Ranking.eligibleFor p) = []) ∧
    ((Ranking.topMoversGET markets p).2 = true →
      List.Sorted Ranking.byLastUpdatedDesc (Ranking.topMoversGET markets p).1 ∧
      ∀ r ∈ markets, r.isExcluded = false →
        r ∉ (Ranking.topMoversGET markets p).1 →
        ∀ r2 ∈ (Ranking.topMoversGET markets p).1,
          r.lastUpdated ≤ r2.lastUpdated) := by
  rw [Ranking.topMoversGET]
  split
  · rename_i hE
    refine ⟨?_, ?_, ?_, ?_, ?_⟩
    · rw [List.length_take]
      exact min_le_left _ _
    · intro r hr
      have hr1 : r ∈ (markets.filter fun r => !r.isExcluded).insertionSort
          Ranking.byLastUpdatedDesc := (List.take_sublist _ _).subset hr
      have hr2 := (List.mem_insertionSort _).mp hr1
      have := (List.mem_filter.mp hr2).2
      simpa using this
    · intro hc
      simp at hc
    · simp [List.isEmpty_iff.mp hE]
    · intro _
      constructor
      · exact List.Pairwise.sublist (List.take_sublist _ _)
          (List.sorted_insertionSort _ _)
      · intro r hrM hrEx hrNot r2 hr2
        have hrS : r ∈ (markets.filter fun r => !r.isExcluded).insertionSort
            Ranking.byLastUpdatedDesc :=
          (List.mem_insertionSort _).mpr
            (List.mem_filter.mpr ⟨hrM, by simp [hrEx]⟩)
        have hsplit :
            ((markets.filter fun r => !r.isExcluded).insertionSort
              Ranking.byLastUpdatedDesc).take 20 ++
            ((markets.filter fun r => !r.isExcluded).insertionSort
              Ranking.byLastUpdatedDesc).drop 20 =
            (markets.filter fun r => !r.isExcluded).insertionSort
              Ranking.byLastUpdatedDesc := List.take_append_drop _ _
        have hrDrop : r ∈ ((markets.filter fun r => !r.isExcluded).insertionSort
            Ranking.byLastUpdatedDesc).drop 20 := by
          rcases List.mem_append.mp (by rw [hsplit]; exact hrS) with h | h
          · exact absurd h hrNot
          · exact h
        have hsorted : List.Pairwise Ranking.byLastUpdatedDesc
            (((markets.filter fun r => !r.isExcluded).insertionSort
              Ranking.byLastUpdatedDesc).take 20 ++
             ((markets.filter fun r => !r.isExcluded).insertionSort
              Ranking.byLastUpdatedDesc).drop 20) := by
          rw [hsplit]
          exact List.sorted_insertionSort _ _
        exact (List.pairwise_append.mp hsorted).2.2 r2 hr2 r hrDrop
  · rename_i hE
    have hmemElig : ∀ r ∈ ((markets.filter (Ranking.eligibleFor p)).insertionSort
        (Ranking.byAbsChangeDesc p)).take 20,
        Ranking.eligibleFor p r = true := by
      intro r hr
      have hr1 := (List.take_sublist _ _).subset hr
      have hr2 := (List.mem_insertionSort _).mp hr1
      exact (List.mem_filter.mp hr2).2
    refine ⟨?_, ?_, ?_, ?_, ?_⟩
    · rw [List.length_take]
      exact min_le_left _ _
    · intro r hr
      have := hmemElig r hr
      rw [Ranking.eligibleFor] at this
      simp only [Bool.and_eq_true, Bool.not_eq_true'] at this
      exact this.1.1
    · intro _
      constructor
      · exact List.Pairwise.sublist (List.take_sublist _ _)
          (List.sorted_insertionSort _ _)
      · intro r hr
        have := hmemElig r hr
        rw [Ranking.eligibleFor] at this
        simp only [Bool.and_eq_true, Bool.not_eq_true'] at this
        exact ⟨this.1.2, this.2⟩
    · constructor
      · intro hc
        simp at hc
      · intro hc
        rw [hc] at hE
        simp at hE
    · intro hc
      simp at hc

lemma upsertOne_ne (now : ℤ) (st : Refresh.Store) (m : NormalizedMarket)
    (k : List Char × Source) (h : k ≠ (m.marketId, m.source)) :
    Refresh.upsertOne now st m k = st k := by
  simp only [Refresh.upsertOne]
  rw [if_neg h]

lemma upsertOne_self (now : ℤ) (st : Refresh.Store) (m : NormalizedMarket) :
    Refresh.upsertOne now st m (m.marketId, m.source) =
      some (match st (m.marketId, m.source) with
            | some r => Refresh.applySet m now r
            | none => Refresh.newRow m now) := by
  simp only [Refresh.upsertOne]
  simp

lemma foldl_upsert_ne (now : ℤ) (batch : List NormalizedMarket) :
    ∀ (st : Refresh.Store) (k : List Char × Source),
      (∀ m ∈ batch, (m.marketId, m.source) ≠ k) →
      batch.foldl (Refresh.upsertOne now) st k = st k := by
  induction batch with
  | nil => intro st k _; rfl
  | cons a t ih =>
      intro st k h
      rw [List.foldl_cons]
      rw [ih _ k fun m hm => h m (List.mem_cons_of_mem _ hm)]
      exact upsertOne_ne _ _ _ _ (Ne.symm (h a (List.mem_cons_self _ _)))

lemma bulkStep_fst (now : ℤ) (acc : Refresh.Store × ℕ × ℕ)
    (m : NormalizedMarket) :
    (Refresh.bulkStep now acc m).1 = Refresh.upsertOne now acc.1 m := by
  rw [Refresh.bulkStep]
  split <;> rfl

lemma foldl_bulk_fst (now : ℤ) (batch : List NormalizedMarket) :
    ∀ init : Refresh.Store × ℕ × ℕ,
      (batch.foldl (Refresh.bulkStep now) init).1 =
        batch.foldl (Refresh.upsertOne now) init.1 := by
  induction batch with
  | nil => intro init; rfl
  | cons a t ih =>
      intro init
      rw [List.foldl_cons, List.foldl_cons, ih, bulkStep_fst]

lemma execBulk_fst (now : ℤ) (st : Refresh.Store)
    (batch : List NormalizedMarket) :
    (Refresh.execBulk now st batch).1 =
      batch.foldl (Refresh.upsertOne now) st :=
  foldl_bulk_fst now batch (st, 0, 0)

lemma foldl_upsert_point (now : ℤ) (batch : List NormalizedMarket) :
    ∀ (st : Refresh.Store) (m : NormalizedMarket), m ∈ batch →
      (batch.map fun x => (x.marketId, x.source)).Nodup →
      batch.foldl (Refresh.upsertOne now) st (m.marketId, m.source) =
        some (match st (m.marketId, m.source) with
              | some r => Refresh.applySet m now r
              | none => Refresh.newRow m now) := by
  induction batch with
  | nil => intro st m hm _; cases hm
  | cons a t ih =>
      intro st m hm hnd
      rw [List.map_cons] at hnd
      have hnd2 := List.nodup_cons.mp hnd
      rw [List.foldl_cons]
      rcases List.mem_cons.mp hm with rfl | hmt
      · have hnotin : ∀ x ∈ t, (x.marketId, x.source) ≠ (m.marketId, m.source) := by
          intro x hx he
          exact hnd2.1 (he ▸ List.mem_map_of_mem _ hx)
        rw [foldl_upsert_ne now t _ _ hnotin]
        exact upsertOne_self now st m
      · have hne : (m.marketId, m.source) ≠ (a.marketId, a.source) := by
          intro he
          exact hnd2.1 (he ▸ List.mem_map_of_mem _ hmt)
        rw [ih _ m hmt hnd2.2]
        rw [upsertOne_ne now st a _ hne]

lemma foldl_bulk_counts_fresh (now : ℤ) (batch : List NormalizedMarket) :
    ∀ (st : Refresh.Store) (mods ups : ℕ),
      (∀ m ∈ batch, st (m.marketId, m.source) = none) →
      (batch.map fun x => (x.marketId, x.source)).Nodup →
      batch.foldl (Refresh.bulkStep now) (st, mods, ups) =
        (batch.foldl (Refresh.upsertOne now) st, mods, ups + batch.length) := by
  induction batch with
  | nil => intro st mods ups _ _; rfl
  | cons a t ih =>
      intro st mods ups hfresh hnd
      rw [List.map_cons] at hnd
      have hnd2 := List.nodup_cons.mp hnd
      rw [List.foldl_cons, List.foldl_cons]
      have hstep : Refresh.bulkStep now (st, mods, ups) a =
          (Refresh.upsertOne now st a, mods, ups + 1) := by
        rw [Refresh.bulkStep]
        have h0 : (st, mods, ups).1 (a.marketId, a.source) = none :=
          hfresh a (List.mem_cons_self _ _)
        split
        · rfl
        · rename_i r hr
          rw [h0] at hr
          cases hr
      rw [hstep]
      have hfresh2 : ∀ m ∈ t,
          Refresh.upsertOne now st a (m.marketId, m.source) = none := by
        intro m hm
        have hne : (m.marketId, m.source) ≠ (a.marketId, a.source) := by
          intro he
          exact hnd2.1 (he ▸ List.mem_map_of_mem _ hm)
        rw [upsertOne_ne now st a _ hne]
        exact hfresh m (List.mem_cons_of_mem _ hm)
      rw [ih _ mods (ups + 1) hfresh2 hnd2.2]
      have harith : ups + 1 + t.length = ups + (a :: t).length := by
        simp [List.length_cons]
        omega
      rw [harith]

lemma frame_refl (r : IMarket) : Refresh.Frame r r :=
  ⟨rfl, rfl, rfl, rfl, rfl, rfl, rfl, rfl, rfl⟩

lemma frame_trans {r1 r2 r3 : IMarket} (h1 : Refresh.Frame r1 r2)
    (h2 : Refresh.Frame r2 r3) : Refresh.Frame r1 r3 := by
  obtain ⟨a1, a2, a3, a4, a5, a6, a7, a8, a9⟩ := h1
  obtain ⟨b1, b2, b3, b4, b5, b6, b7, b8, b9⟩ := h2
  exact ⟨b1.trans a1, b2.trans a2, b3.trans a3, b4.trans a4, b5.trans a5,
         b6.trans a6, b7.trans a7, b8.trans a8, b9.trans a9⟩

lemma frame_applySet (m : NormalizedMarket) (now : ℤ) (r : IMarket) :
    Refresh.Frame r (Refresh.applySet m now r) :=
  ⟨rfl, rfl, rfl, rfl, rfl, rfl, rfl, rfl, rfl⟩

lemma foldl_upsert_frame (now : ℤ) (batch : List NormalizedMarket) :
    ∀ (st : Refresh.Store) (k : List Char × Source) (r : IMarket),
      st k = some r →
      ∃ r2, batch.foldl (Refresh.upsertOne now) st k = some r2 ∧
        Refresh.Frame r r2 := by
  induction batch with
  | nil => intro st k r h; exact ⟨r, h, frame_refl r⟩
  | cons a t ih =>
      intro st k r h
      rw [List.foldl_cons]
      by_cases hk : k = (a.marketId, a.source)
      · subst hk
        have h1 : Refresh.upsertOne now st a (a.marketId, a.source) =
            some (Refresh.applySet a now r) := by
          rw [upsertOne_self, h]
        obtain ⟨r2, h2, hf⟩ := ih _ _ _ h1
        exact ⟨r2, h2, frame_trans (frame_applySet a now r) hf⟩
      · have h1 : Refresh.upsertOne now st a k = some r := by
          rw [upsertOne_ne _ _ _ _ hk]
          exact h
        exact ih _ _ _ h1

lemma wf_upsertOne (now : ℤ) (st : Refresh.Store) (m : NormalizedMarket)
    (hwf : Refresh.WellFormed st) :
    Refresh.WellFormed (Refresh.upsertOne now st m) := by
  intro k r h
  by_cases hk : k = (m.marketId, m.source)
  · subst hk
    rw [upsertOne_self] at h
    cases hst : st (m.marketId, m.source) with
    | none =>
        rw [hst] at h
        simp only at h
        cases h
        exact ⟨rfl, rfl⟩
    | some r0 =>
        rw [hst] at h
        simp only at h
        cases h
        exact ⟨rfl, rfl⟩
  · rw [upsertOne_ne _ _ _ _ hk] at h
    exact hwf k r h

lemma wf_foldl_upsert (now : ℤ) (batch : List NormalizedMarket) :
    ∀ st : Refresh.Store, Refresh.WellFormed st →
      Refresh.WellFormed (batch.foldl (Refresh.upsertOne now) st) := by
  induction batch with
  | nil => intro st hwf; exact hwf
  | cons a t ih =>
      intro st hwf
      rw [List.foldl_cons]
      exact ih _ (wf_upsertOne now st a hwf)

lemma chunkSnapshots_cons (src : Source) (now : ℤ) (st : Refresh.Store)
    (a : NormalizedMarket) (t : List NormalizedMarket) :
    Refresh.chunkSnapshots src now st (a :: t) =
      (match st (a.marketId, src) with
       | some r => [({ marketId := r.marketId, source := r.source,
                       price := r.currentPrice, timestamp := now } :
                     Engine.HistoricalPriceRec)]
       | none => []) ++ Refresh.chunkSnapshots src now st t := by
  rw [Refresh.chunkSnapshots, Refresh.chunkSnapshots, List.filterMap_cons]
  cases hst : st (a.marketId, src) <;> simp [hst]

lemma chunkSnapshots_ids (src : Source) (now : ℤ) (st : Refresh.Store)
    (batch : List NormalizedMarket) (hwf : Refresh.WellFormed st) :
    ∀ s ∈ Refresh.chunkSnapshots src now st batch,
      s.marketId ∈ batch.map (fun m => m.marketId) ∧ s.source = src := by
  intro s hs
  rw [Refresh.chunkSnapshots, List.mem_filterMap] at hs
  obtain ⟨m, hm, hf⟩ := hs
  cases hst : st (m.marketId, src) with
  | none => rw [hst] at hf; cases hf
  | some r =>
      rw [hst] at hf
      simp only [Option.map_some', Option.some.injEq] at hf
      obtain ⟨hid, hsrc2⟩ := hwf _ _ hst
      subst hf
      refine ⟨?_, hsrc2⟩
      show r.marketId ∈ _
      rw [hid]
      exact List.mem_map_of_mem _ hm

lemma chunkSnapshots_filter (src : Source) (now : ℤ) (st : Refresh.Store)
    (hwf : Refresh.WellFormed st) :
    ∀ (batch : List NormalizedMarket) (m : NormalizedMarket), m ∈ batch →
      (batch.map fun x => x.marketId).Nodup →
      (Refresh.chunkSnapshots src now st batch).filter
        (fun s => s.marketId == m.marketId && s.source == src) =
      (match st (m.marketId, src) with
       | some r => [({ marketId := m.marketId, source := src,
                       price := r.currentPrice, timestamp := now } :
                     Engine.HistoricalPriceRec)]
       | none => []) := by
  intro batch
  induction batch with
  | nil => intro m hm _; cases hm
  | cons a t ih =>
      intro m hm hnd
      rw [List.map_cons] at hnd
      have hnd2 := List.nodup_cons.mp hnd
      rw [chunkSnapshots_cons, List.filter_append]
      have hrest_nil : ∀ mm : NormalizedMarket,
          mm.marketId ∉ t.map (fun x => x.marketId) →
          (Refresh.chunkSnapshots src now st t).filter
            (fun s => s.marketId == mm.marketId && s.source == src) = [] := by
        intro mm hnot
        rw [List.filter_eq_nil_iff]
        intro s hs hpred
        obtain ⟨hin, _⟩ := chunkSnapshots_ids src now st t hwf s hs
        simp only [Bool.and_eq_true, beq_iff_eq] at hpred
        exact hnot (hpred.1 ▸ hin)
      rcases List.mem_cons.mp hm with rfl | hmt
      · rw [hrest_nil m hnd2.1, List.append_nil]
        cases hst : st (m.marketId, src) with
        | none => simp
        | some r =>
            have hids := hwf _ _ hst
            have hid : r.marketId = m.marketId := hids.1
            have hsrc2 : r.source = src := hids.2
            simp [List.filter_cons, hid, hsrc2]
      · have hneq : a.marketId ≠ m.marketId := by
          intro he
          exact hnd2.1 (he ▸ List.mem_map_of_mem _ hmt)
        have hhead_nil : (match st (a.marketId, src) with
            | some r => [({ marketId := r.marketId, source := r.source,
                            price := r.currentPrice, timestamp := now } :
                          Engine.HistoricalPriceRec)]
            | none => []).filter
              (fun s : Engine.HistoricalPriceRec =>
                s.marketId == m.marketId && s.source == src) = [] := by
          cases hst : st (a.marketId, src) with
          | none => simp
          | some r =>
              have hids := hwf _ _ hst
              have hid : r.marketId = a.marketId := hids.1
              simp [List.filter_cons, hid, hneq]
        rw [hhead_nil, List.nil_append]
        exact ih m hmt hnd2.2

lemma length_pos_of_isEmpty_false {α : Type} {l : List α}
    (h : l.isEmpty = false) : 0 < l.length := by
  cases l with
  | nil => simp [List.isEmpty] at h
  | cons a t => simp

lemma processMarketsGo_empty (src : Source) (now : ℤ) (fuel : ℕ)
    (st : Refresh.Store) :
    Refresh.processMarketsGo src now fuel st [] = ⟨st, [], 0, 0⟩ := by
  cases fuel <;> rfl

lemma processMarketsGo_succ (src : Source) (now : ℤ) (fuel : ℕ)
    (st : Refresh.Store) (markets : List NormalizedMarket)
    (hne : markets.isEmpty = false) :
    Refresh.processMarketsGo src now (fuel + 1) st markets =
      { store := (Refresh.processMarketsGo src now fuel
          (Refresh.execBulk now st (markets.take 500)).1
          (markets.drop 500)).store,
        snaps := Refresh.chunkSnapshots src now st (markets.take 500) ++
          (Refresh.processMarketsGo src now fuel
            (Refresh.execBulk now st (markets.take 500)).1
            (markets.drop 500)).snaps,
        modifiedCount := (Refresh.execBulk now st (markets.take 500)).2.1 +
          (Refresh.processMarketsGo src now fuel
            (Refresh.execBulk now st (markets.take 500)).1
            (markets.drop 500)).modifiedCount,
        upsertedCount := (Refresh.execBulk now st (markets.take 500)).2.2 +
          (Refresh.processMarketsGo src now fuel
            (Refresh.execBulk now st (markets.take 500)).1
            (markets.drop 500)).upsertedCount } := by
  rw [Refresh.processMarketsGo]
  rw [if_neg (by simp [hne])]

lemma nodup_map_take_drop {α β : Type} (f : α → β) (l : List α) (n : ℕ)
    (h : (l.map f).Nodup) :
    ((l.take n).map f).Nodup ∧ ((l.drop n).map f).Nodup ∧
      ∀ x ∈ (l.take n).map f, x ∉ (l.drop n).map f := by
  have hsplit : l.map f = (l.take n).map f ++ (l.drop n).map f := by
    rw [← List.map_append, List.take_append_drop]
  rw [hsplit, List.nodup_append] at h
  exact ⟨h.1, h.2.1, fun x hx => h.2.2 hx⟩

lemma go_store_ne (src : Source) (now : ℤ) :
    ∀ (fuel : ℕ) (markets : List NormalizedMarket) (st : Refresh.Store)
      (k : List Char × Source), markets.length ≤ fuel →
      (∀ m ∈ markets, (m.marketId, m.source) ≠ k) →
      (Refresh.processMarketsGo src now fuel st markets).store k = st k := by
  intro fuel
  induction fuel with
  | zero => intro markets st k _ _; rfl
  | succ n ih =>
      intro markets st k hlen hnot
      cases hne : markets.isEmpty with
      | true =>
          have hnil : markets = [] := List.isEmpty_iff.mp hne
          subst hnil
          rw [processMarketsGo_empty]
      | false =>
          rw [processMarketsGo_succ src now n st markets hne]
          have hpos := length_pos_of_isEmpty_false hne
          have hlen2 : (markets.drop 500).length ≤ n := by
            rw [List.length_drop]
            omega
          rw [ih (markets.drop 500) _ k hlen2
            (fun m hm => hnot m ((List.drop_sublist _ _).subset hm))]
          rw [execBulk_fst]
          exact foldl_upsert_ne now _ _ _
            (fun m hm => hnot m ((List.take_sublist _ _).subset hm))

lemma go_store_point (src : Source) (now : ℤ) :
    ∀ (fuel : ℕ) (markets : List NormalizedMarket) (st : Refresh.Store)
      (m : NormalizedMarket), markets.length ≤ fuel → m ∈ markets →
      ((markets.map fun x => (x.marketId, x.source)).Nodup) →
      (Refresh.processMarketsGo src now fuel st markets).store
          (m.marketId, m.source) =
        some (match st (m.marketId, m.source) with
              | some r => Refresh.applySet m now r
              | none => Refresh.newRow m now) := by
  intro fuel
  induction fuel with
  | zero =>
      intro markets st m hlen hm _
      have hnil : markets = [] := List.eq_nil_of_length_eq_zero (Nat.le_zero.mp hlen)
      subst hnil
      cases hm
  | succ n ih =>
      intro markets st m hlen hm hnd
      cases hne : markets.isEmpty with
      | true =>
          have hnil : markets = [] := List.isEmpty_iff.mp hne
          subst hnil
          cases hm
      | false =>
          rw [processMarketsGo_succ src now n st markets hne]
          have hpos := length_pos_of_isEmpty_false hne
          have hlen2 : (markets.drop 500).length ≤ n := by
            rw [List.length_drop]
            omega
          obtain ⟨hndT, hndD, hdisj⟩ :=
            nodup_map_take_drop (fun x => (x.marketId, x.source)) markets 500 hnd
          have hm2 : m ∈ markets.take 500 ∨ m ∈ markets.drop 500 := by
            rcases List.mem_append.mp
              (by rw [List.take_append_drop]; exact hm : m ∈ markets.take 500 ++ markets.drop 500) with h | h
            exacts [Or.inl h, Or.inr h]
          rcases hm2 with hmt | hmd
          · have hnotin : ∀ x ∈ markets.drop 500,
                (x.marketId, x.source) ≠ (m.marketId, m.source) := by
              intro x hx he
              exact hdisj _ (List.mem_map_of_mem _ hmt)
                (he ▸ List.mem_map_of_mem _ hx)
            rw [go_store_ne src now n (markets.drop 500) _ _ hlen2 hnotin]
            rw [execBulk_fst]
            exact foldl_upsert_point now _ _ m hmt hndT
          · have hnotin : ∀ x ∈ markets.take 500,
                (x.marketId, x.source) ≠ (m.marketId, m.source) := by
              intro x hx he
              exact hdisj _ (List.mem_map_of_mem _ hx)
                (he ▸ List.mem_map_of_mem _ hmd)
            rw [ih (markets.drop 500) _ m hlen2 hmd hndD]
            rw [execBulk_fst, foldl_upsert_ne now _ _ _ hnotin]

lemma go_snaps_ids (src : Source) (now : ℤ) :
    ∀ (fuel : ℕ) (markets : List NormalizedMarket) (st : Refresh.Store),
      Refresh.WellFormed st →
      ∀ s ∈ (Refresh.processMarketsGo src now fuel st markets).snaps,
        s.marketId ∈ markets.map (fun m => m.marketId) ∧ s.source = src := by
  intro fuel
  induction fuel with
  | zero =>
      intro markets st _ s hs
      simp only [Refresh.processMarketsGo] at hs
      cases hs
  | succ n ih =>
      intro markets st hwf s hs
      cases hne : markets.isEmpty with
      | true =>
          have hnil : markets = [] := List.isEmpty_iff.mp hne
          subst hnil
          rw [processMarketsGo_empty] at hs
          cases hs
      | false =>
          rw [processMarketsGo_succ src now n st markets hne] at hs
          dsimp only at hs
          rcases List.mem_append.mp hs with h | h
          · obtain ⟨hin, hsrc2⟩ := chunkSnapshots_ids src now st _ hwf s h
            exact ⟨List.map_subset _ ((List.take_sublist _ _).subset) hin, hsrc2⟩
          · have hwf2 : Refresh.WellFormed
                (Refresh.execBulk now st (markets.take 500)).1 := by
              rw [execBulk_fst]
              exact wf_foldl_upsert now _ st hwf
            obtain ⟨hin, hsrc2⟩ := ih (markets.drop 500) _ hwf2 s h
            exact ⟨List.map_subset _ ((List.drop_sublist _ _).subset) hin, hsrc2⟩

lemma go_snaps_filter (src : Source) (now : ℤ) :
    ∀ (fuel : ℕ) (markets : List NormalizedMarket) (st : Refresh.Store)
      (m : NormalizedMarket), markets.length ≤ fuel →
      Refresh.WellFormed st → m ∈ markets →
      ((markets.map fun x => x.marketId).Nodup) →
      (∀ x ∈ markets, x.source = src) →
      (Refresh.processMarketsGo src now fuel st markets).snaps.filter
        (fun s => s.marketId == m.marketId && s.source == src) =
      (match st (m.marketId, src) with
       | some r => [({ marketId := m.marketId, source := src,
                       price := r.currentPrice, timestamp := now } :
                     Engine.HistoricalPriceRec)]
       | none => []) := by
  intro fuel
  induction fuel with
  | zero =>
      intro markets st m hlen _ hm _ _
      have hnil : markets = [] := List.eq_nil_of_length_eq_zero (Nat.le_zero.mp hlen)
      subst hnil
      cases hm
  | succ n ih =>
      intro markets st m hlen hwf hm hnd hsrc
      cases hne : markets.isEmpty with
      | true =>
          have hnil : markets = [] := List.isEmpty_iff.mp hne
          subst hnil
          cases hm
      | false =>
          rw [processMarketsGo_succ src now n st markets hne]
          dsimp only
          rw [List.filter_append]
          have hpos := length_pos_of_isEmpty_false hne
          have hlen2 : (markets.drop 500).length ≤ n := by
            rw [List.length_drop]
            omega
          obtain ⟨hndT, hndD, hdisj⟩ :=
            nodup_map_take_drop (fun x => x.marketId) markets 500 hnd
          have hwf2 : Refresh.WellFormed
              (Refresh.execBulk now st (markets.take 500)).1 := by
            rw [execBulk_fst]
            exact wf_foldl_upsert now _ st hwf
          have hm2 : m ∈ markets.take 500 ∨ m ∈ markets.drop 500 := by
            rcases List.mem_append.mp
              (by rw [List.take_append_drop]; exact hm :
                m ∈ markets.take 500 ++ markets.drop 500) with h | h
            exacts [Or.inl h, Or.inr h]
          rcases hm2 with hmt | hmd
          · rw [chunkSnapshots_filter src now st hwf (markets.take 500) m hmt hndT]
            have hrest : ((Refresh.processMarketsGo src now n
                (Refresh.execBulk now st (markets.take 500)).1
                (markets.drop 500)).snaps).filter
                (fun s => s.marketId == m.marketId && s.source == src) = [] := by
              rw [List.filter_eq_nil_iff]
              intro s hs hpred
              obtain ⟨hin, _⟩ :=
                go_snaps_ids src now n (markets.drop 500) _ hwf2 s hs
              simp only [Bool.and_eq_true, beq_iff_eq] at hpred
              exact hdisj m.marketId (List.mem_map_of_mem _ hmt) (hpred.1 ▸ hin)
            rw [hrest, List.append_nil]
          · have hchunk : (Refresh.chunkSnapshots src now st
                (markets.take 500)).filter
                (fun s => s.marketId == m.marketId && s.source == src) = [] := by
              rw [List.filter_eq_nil_iff]
              intro s hs hpred
              obtain ⟨hin, _⟩ := chunkSnapshots_ids src now st _ hwf s hs
              simp only [Bool.and_eq_true, beq_iff_eq] at hpred
              exact hdisj _ (hpred.1 ▸ hin) (List.mem_map_of_mem _ hmd)
            rw [hchunk, List.nil_append]
            rw [ih (markets.drop 500) _ m hlen2 hwf2 hmd hndD
              (fun x hx => hsrc x ((List.drop_sublist _ _).subset hx))]
            have hkeep : (Refresh.execBulk now st (markets.take 500)).1
                (m.marketId, src) = st (m.marketId, src) := by
              rw [execBulk_fst]
              apply foldl_upsert_ne
              intro x hx he
              have hxid : x.marketId = m.marketId := congrArg Prod.fst he
              exact hdisj _ (hxid ▸ List.mem_map_of_mem (fun x => x.marketId) hx)
                (List.mem_map_of_mem _ hmd)
            rw [hkeep]

lemma go_counts_fresh (src : Source) (now : ℤ) :
    ∀ (fuel : ℕ) (markets : List NormalizedMarket) (st : Refresh.Store),
      markets.length ≤ fuel →
      (∀ m ∈ markets, st (m.marketId, m.source) = none) →
      ((markets.map fun x => (x.marketId, x.source)).Nodup) →
      (Refresh.processMarketsGo src now fuel st markets).upsertedCount =
        markets.length ∧
      (Refresh.processMarketsGo src now fuel st markets).modifiedCount = 0 := by
  intro fuel
  induction fuel with
  | zero =>
      intro markets st hlen _ _
      have hnil : markets = [] := List.eq_nil_of_length_eq_zero (Nat.le_zero.mp hlen)
      subst hnil
      exact ⟨rfl, rfl⟩
  | succ n ih =>
      intro markets st hlen hfresh hnd
      cases hne : markets.isEmpty with
      | true =>
          have hnil : markets = [] := List.isEmpty_iff.mp hne
          subst hnil
          rw [processMarketsGo_empty]
          exact ⟨rfl, rfl⟩
      | false =>
          rw [processMarketsGo_succ src now n st markets hne]
          dsimp only
          have hpos := length_pos_of_isEmpty_false hne
          have hlen2 : (markets.drop 500).length ≤ n := by
            rw [List.length_drop]
            omega
          obtain ⟨hndT, hndD, hdisj⟩ :=
            nodup_map_take_drop (fun x => (x.marketId, x.source)) markets 500 hnd
          have hexec : Refresh.execBulk now st (markets.take 500) =
              ((markets.take 500).foldl (Refresh.upsertOne now) st, 0,
                0 + (markets.take 500).length) :=
            foldl_bulk_counts_fresh now (markets.take 500) st 0 0
              (fun m hm => hfresh m ((List.take_sublist _ _).subset hm)) hndT
          have hfresh2 : ∀ m ∈ markets.drop 500,
              (Refresh.execBulk now st (markets.take 500)).1
                (m.marketId, m.source) = none := by
            intro m hm
            rw [execBulk_fst]
            rw [foldl_upsert_ne now _ _ _ ?hno]
            · exact hfresh m ((List.drop_sublist _ _).subset hm)
            case hno =>
              intro x hx he
              exact hdisj _ (List.mem_map_of_mem _ hx)
                (he ▸ List.mem_map_of_mem _ hm)
          obtain ⟨ih1, ih2⟩ := ih (markets.drop 500) _ hlen2 hfresh2 hndD
          have hlensum : (markets.take 500).length + (markets.drop 500).length =
              markets.length := by
            rw [← List.length_append, List.take_append_drop]
          constructor
          · rw [ih1, hexec]
            dsimp only
            omega
          · rw [ih2, hexec]

lemma go_frame (src : Source) (now : ℤ) :
    ∀ (fuel : ℕ) (markets : List NormalizedMarket) (st : Refresh.Store)
      (k : List Char × Source) (r : IMarket), st k = some r →
      ∃ r2, (Refresh.processMarketsGo src now fuel st markets).store k =
        some r2 ∧ Refresh.Frame r r2 := by
  intro fuel
  induction fuel with
  | zero => intro markets st k r h; exact ⟨r, h, frame_refl r⟩
  | succ n ih =>
      intro markets st k r h
      cases hne : markets.isEmpty with
      | true =>
          have hnil : markets = [] := List.isEmpty_iff.mp hne
          subst hnil
          rw [processMarketsGo_empty]
          exact ⟨r, h, frame_refl r⟩
      | false =>
          rw [processMarketsGo_succ src now n st markets hne]
          dsimp only
          have h2 : ∃ r1, (Refresh.execBulk now st (markets.take 500)).1 k =
              some r1 ∧ Refresh.Frame r r1 := by
            rw [execBulk_fst]
            exact foldl_upsert_frame now _ st k r h
          obtain ⟨r1, hr1, hf1⟩ := h2
          obtain ⟨r2, hr2, hf2⟩ := ih (markets.drop 500) _ k r1 hr1
          exact ⟨r2, hr2, frame_trans hf1 hf2⟩

/-- C7: one refresh cycle never writes the derived price-change fields or
the exclusion fields of any pre-existing Market row; only the normalized
source fields and `lastUpdated` are set, so every row present before the
cycle keeps its prior derived and exclusion values. -/
theorem refresh_preserves_derived_and_exclusion (st : Refresh.Store)
    (history : List Engine.HistoricalPriceRec) (now : ℤ)
    (kalshiFetch polymarketFetch manifoldFetch :
      Except Unit (List NormalizedMarket))
    (k : List Char × Source) (r : IMarket) (h : st k = some r) :
    ∃ r2, (Refresh.refreshAllMarkets st history now kalshiFetch
        polymarketFetch manifoldFetch).2.1 k = some r2 ∧
      Refresh.Frame r r2 := by
  obtain ⟨r1, h1, f1⟩ := go_frame .kalshi now
    (Refresh.fetchResult kalshiFetch).length (Refresh.fetchResult kalshiFetch)
    st k r h
  obtain ⟨r2, h2, f2⟩ := go_frame .polymarket now
    (Refresh.fetchResult polymarketFetch).length
    (Refresh.fetchResult polymarketFetch) _ k r1 h1
  obtain ⟨r3, h3, f3⟩ := go_frame .manifold now
    (Refresh.fetchResult manifoldFetch).length
    (Refresh.fetchResult manifoldFetch) _ k r2 h2
  exact ⟨r3, h3, frame_trans (frame_trans f1 f2) f3⟩

/-- Witness for C7: a concrete refresh over a one-row store updating that
row keeps its derived and exclusion fields. -/
theorem refresh_preserves_derived_witness :
    ∃ r2, (Refresh.refreshAllMarkets Fixtures.storeA [] 5
        (.ok [Fixtures.updA]) (.error ()) (.ok [])).2.1
        ("A".toList, Source.kalshi) = some r2 ∧
      Refresh.Frame Fixtures.rowA r2 :=
  refresh_preserves_derived_and_exclusion Fixtures.storeA [] 5
    (.ok [Fixtures.updA]) (.error ()) (.ok [])
    ("A".toList, Source.kalshi) Fixtures.rowA (by decide)

/-- C4 counterexample: a batch that lists the same existing marketId
twice appends two HistoricalPrice rows for that market in one cycle, not
exactly one. -/
theorem refresh_snapshot_duplicate_two_rows :
    ((Refresh.processMarkets [Fixtures.updA, Fixtures.updA2] .kalshi 5
        Fixtures.storeA).1.snaps.filter
      (fun s => s.marketId == "A".toList && s.source == Source.kalshi)).length
      = 2 := by
  decide

/-- C4 (amended): provided each marketId occurs at most once in the
source's normalized batch, a market whose key is new gets a fresh row
(with schema defaults) and zero snapshots, and a market whose key already
exists gets exactly one snapshot carrying its pre-update price, stamped
with the shared reference timestamp. -/
theorem refresh_snapshot_per_market (markets : List NormalizedMarket)
    (src : Source) (now : ℤ) (st : Refresh.Store)
    (hwf : Refresh.WellFormed st)
    (hnd : (markets.map fun m => m.marketId).Nodup)
    (hsrc : ∀ m ∈ markets, m.source = src) :
    ∀ m ∈ markets,
      (st (m.marketId, src) = none →
        (Refresh.processMarkets markets src now st).1.store (m.marketId, src) =
          some (Refresh.newRow m now) ∧
        (Refresh.processMarkets markets src now st).1.snaps.filter
          (fun s => s.marketId == m.marketId && s.source == src) = []) ∧
      (∀ r, st (m.marketId, src) = some r →
        (Refresh.processMarkets markets src now st).1.snaps.filter
          (fun s => s.marketId == m.marketId && s.source == src) =
          [({ marketId := m.marketId, source := src,
              price := r.currentPrice, timestamp := now } :
            Engine.HistoricalPriceRec)]) := by
  intro m hm
  have hkeys : (markets.map fun x => (x.marketId, x.source)).Nodup := by
    have h1 : (List.map Prod.fst
        (markets.map fun x => (x.marketId, x.source))).Nodup := by
      rw [List.map_map]
      exact hnd
    exact h1.of_map
  constructor
  · intro hnone
    constructor
    · have hp := go_store_point src now markets.length markets st m
        le_rfl hm hkeys
      rw [hsrc m hm] at hp
      rw [hnone] at hp
      exact hp
    · have hsf := go_snaps_filter src now markets.length markets st m
        le_rfl hwf hm hnd hsrc
      rw [hnone] at hsf
      exact hsf
  · intro r hr
    have hsf := go_snaps_filter src now markets.length markets st m
      le_rfl hwf hm hnd hsrc
    rw [hr] at hsf
    exact hsf

/-- Witness for C4: a two-market batch over a one-row store creates the
new row with zero snapshots and appends exactly one snapshot with the
pre-update price for the existing row. -/
theorem refresh_snapshot_per_market_witness :
    ((Refresh.processMarkets [Fixtures.updA, Fixtures.newB] .kalshi 5
        Fixtures.storeA).1.store ("B".toList, Source.kalshi) =
      some (Refresh.newRow Fixtures.newB 5) ∧
     (Refresh.processMarkets [Fixtures.updA, Fixtures.newB] .kalshi 5
        Fixtures.storeA).1.snaps.filter
        (fun s => s.marketId == "B".toList && s.source == Source.kalshi) =
       []) ∧
    (Refresh.processMarkets [Fixtures.updA, Fixtures.newB] .kalshi 5
        Fixtures.storeA).1.snaps.filter
        (fun s => s.marketId == "A".toList && s.source == Source.kalshi) =
      [({ marketId := "A".toList, source := Source.kalshi, price := 10,
          timestamp := 5 } : Engine.HistoricalPriceRec)] := by
  have hwfA : Refresh.WellFormed Fixtures.storeA := by
    intro k r h
    by_cases hk : k = ("A".toList, Source.kalshi)
    · subst hk
      simp only [Fixtures.storeA, if_true] at h
      cases h
      exact ⟨rfl, rfl⟩
    · simp only [Fixtures.storeA] at h
      rw [if_neg hk] at h
      cases h
  have hT := refresh_snapshot_per_market [Fixtures.updA, Fixtures.newB]
    .kalshi 5 Fixtures.storeA hwfA (by decide) (by decide)
  refine ⟨?_, ?_⟩
  · exact (hT Fixtures.newB (by decide)).1 (by decide)
  · exact (hT Fixtures.updA (by decide)).2 Fixtures.rowA (by decide)

/-- C1 counterexample: when the Polymarket fetch fails while Kalshi and
Manifold each yield one fresh market, `refreshAll` reports
`polymarket.errors = 0`, not a nonzero error count — the failure is only
logged. -/
theorem refresh_polymarket_error_count_zero :
    (Refresh.refreshAllMarkets Fixtures.emptyStore [] 5 (.ok [Fixtures.newB])
        (.error ()) (.ok [Fixtures.newC])).1.polymarket.errors = 0 ∧
    (Refresh.refreshAllMarkets Fixtures.emptyStore [] 5 (.ok [Fixtures.newB])
        (.error ()) (.ok [Fixtures.newC])).1.kalshi.marketsAdded = 1 ∧
    (Refresh.refreshAllMarkets Fixtures.emptyStore [] 5 (.ok [Fixtures.newB])
        (.error ()) (.ok [Fixtures.newC])).1.manifold.marketsAdded = 1 := by
  refine ⟨rfl, ?_, ?_⟩ <;> decide

/-- C1 (amended): a failed Polymarket fetch is caught and mapped to an
empty batch, so `refreshAll` returns (never throws) with the Kalshi and
Manifold counts intact (all-fresh batches add one row each) while the
polymarket summary is entirely zero — `errors` included, since fetch
failures are only logged, not counted; when every source fails the whole
summary is zero, errors included. -/
theorem refresh_failure_isolation (st : Refresh.Store)
    (history : List Engine.HistoricalPriceRec) (now : ℤ)
    (ks ms : List NormalizedMarket)
    (hknd : (ks.map fun m => (m.marketId, m.source)).Nodup)
    (hkfresh : ∀ m ∈ ks, st (m.marketId, m.source) = none)
    (hksrc : ∀ m ∈ ks, m.source = .kalshi)
    (hmnd : (ms.map fun m => (m.marketId, m.source)).Nodup)
    (hmfresh : ∀ m ∈ ms, st (m.marketId, m.source) = none)
    (hmsrc : ∀ m ∈ ms, m.source = .manifold) :
    (Refresh.refreshAllMarkets st history now (.ok ks) (.error ())
        (.ok ms)).1.polymarket = ⟨.polymarket, 0, 0, 0⟩ ∧
    (Refresh.refreshAllMarkets st history now (.ok ks) (.error ())
        (.ok ms)).1.kalshi.marketsAdded = ks.length ∧
    (Refresh.refreshAllMarkets st history now (.ok ks) (.error ())
        (.ok ms)).1.kalshi.errors = 0 ∧
    (Refresh.refreshAllMarkets st history now (.ok ks) (.error ())
        (.ok ms)).1.manifold.marketsAdded = ms.length ∧
    (Refresh.refreshAllMarkets st history now (.ok ks) (.error ())
        (.ok ms)).1.manifold.errors = 0 ∧
    (Refresh.refreshAllMarkets st history now (.error ()) (.error ())
        (.error ())).1 =
      ⟨⟨.kalshi, 0, 0, 0⟩, ⟨.polymarket, 0, 0, 0⟩, ⟨.manifold, 0, 0, 0⟩,
        0, 0, 0, now⟩ := by
  have hmfresh2 : ∀ m ∈ ms,
      (Refresh.processMarketsGo .kalshi now ks.length st ks).store
        (m.marketId, m.source) = none := by
    intro m hm
    rw [go_store_ne .kalshi now ks.length ks st _ le_rfl ?hne]
    · exact hmfresh m hm
    case hne =>
      intro x hx he
      have hsrcx : x.source = m.source := congrArg Prod.snd he
      rw [hksrc x hx, hmsrc m hm] at hsrcx
      cases hsrcx
  refine ⟨rfl, ?_, rfl, ?_, rfl, rfl⟩
  · exact (go_counts_fresh .kalshi now ks.length ks st le_rfl hkfresh hknd).1
  · exact (go_counts_fresh .manifold now ms.length ms _ le_rfl hmfresh2 hmnd).1

/-- Witness for C1: the isolation theorem applied to one fresh Kalshi and
one fresh Manifold market with the Polymarket fetch failing. -/
theorem refresh_failure_isolation_witness :
    (Refresh.refreshAllMarkets Fixtures.emptyStore [] 5 (.ok [Fixtures.newB])
        (.error ()) (.ok [Fixtures.newC])).1.polymarket =
      ⟨.polymarket, 0, 0, 0⟩ ∧
    (Refresh.refreshAllMarkets Fixtures.emptyStore [] 5 (.ok [Fixtures.newB])
        (.error ()) (.ok [Fixtures.newC])).1.kalshi.marketsAdded =
      [Fixtures.newB].length ∧
    (Refresh.refreshAllMarkets Fixtures.emptyStore [] 5 (.ok [Fixtures.newB])
        (.error ()) (.ok [Fixtures.newC])).1.kalshi.errors = 0 ∧
    (Refresh.refreshAllMarkets Fixtures.emptyStore [] 5 (.ok [Fixtures.newB])
        (.error ()) (.ok [Fixtures.newC])).1.manifold.marketsAdded =
      [Fixtures.newC].length ∧
    (Refresh.refreshAllMarkets Fixtures.emptyStore [] 5 (.ok [Fixtures.newB])
        (.error ()) (.ok [Fixtures.newC])).1.manifold.errors = 0 ∧
    (Refresh.refreshAllMarkets Fixtures.emptyStore [] 5 (.error ())
        (.error ()) (.error ())).1 =
      ⟨⟨.kalshi, 0, 0, 0⟩, ⟨.polymarket, 0, 0, 0⟩, ⟨.manifold, 0, 0, 0⟩,
        0, 0, 0, 5⟩ :=
  refresh_failure_isolation Fixtures.emptyStore [] 5 [Fixtures.newB]
    [Fixtures.newC] (by decide) (by decide) (by decide) (by decide)
    (by decide) (by decide)
